import Mathlib

/-!
# Fair single round-robin schedules with ranked participants

A shallow embedding of the repository's core combinatorial components:

* `FairSchedules.motif`, `FairSchedules.pattern`, `FairSchedules.break_rounds`,
  `FairSchedules.break_patterns`, `FairSchedules.tight_order_break_patterns`
  embed `FairSrrProblem` of `models/problem.py` (the schedule domain);
* `FairSchedules.f_measure_counted_twice`, `FairSchedules.delta_t`,
  `FairSchedules.f_valueAux`, `FairSchedules.f_value` embed `RankingHap`,
  with rationals standing for Python's floats (every quantity involved is a
  dyadic rational, so the arithmetic is exact);
* `FairSchedules.interval_distance` embeds `LeftFairnessMeasure.py`;
* `FairSchedules.circle_method` embeds `circlemethod.py`;
* the `Sat`/`objective` family embeds the constraint system that
  `MinRankingFairnessModel._build` of `minF.py` hands to the solver
  (total mode), with an assignment of the binary variables given by Boolean
  functions and the continuous deviation variables by rationals.
-/

namespace FairSchedules

/-! ## ScheduleDomain: `models/problem.py`, class `FairSrrProblem` -/

/-- Python's `deque.rotate(k)`: a positive `k` rotates to the right, a negative
`k` to the left.  Expressed through Mathlib's left rotation `List.rotate`:
rotating right by `k` is rotating left by `(-k) mod length`. -/
def pyRotate (l : List Char) (k : ℤ) : List Char :=
  l.rotate (((-k) % (l.length : ℤ)).toNat)

/-- The cyclic base buffer built by `FairSrrProblem.pattern` before rotating:
`break_type * 2 + other + ''.join(val for pair in zip(break_type * m, other * m)
for val in pair)` with `m = n - 1 - 3`.  (For `n ≤ 4` Python's `str * m` with
`m ≤ 0` is empty, exactly as truncated ℕ-subtraction gives here.) -/
def motif (n : ℕ) (break_type : Char) : List Char :=
  let other : Char := if break_type = 'H' then 'A' else 'H'
  [break_type, break_type, other] ++ (List.replicate (n - 1 - 3) [break_type, other]).flatten

/-- `FairSrrProblem.pattern`: rotate the buffer by `break_round - 1`
(`deque.rotate`, i.e. to the right; to the left for `break_round = 0`)
and keep the first `n - 1` characters. -/
def pattern (n : ℕ) (p : ℕ × Char) : List Char :=
  (pyRotate (motif n p.2) ((p.1 : ℤ) - 1)).take (n - 1)

/-- `FairSrrProblem.plays_home`: `pattern(p)[r] == 'H'`. -/
def plays_home (n : ℕ) (p : ℕ × Char) (r : ℕ) : Bool :=
  (pattern n p).getD r 'A' == 'H'

/-- `FairSrrProblem.break_rounds`: every round when no gap sequence is given;
otherwise `itertools.accumulate(break_gaps[:-1], initial=0)`, the running
prefix sums of all but the last gap starting at 0. -/
def break_rounds (n : ℕ) (break_gaps : Option (List ℕ)) : List ℕ :=
  match break_gaps with
  | none => List.range (n - 1)
  | some gs => List.scanl (· + ·) 0 gs.dropLast

/-- `FairSrrProblem.break_patterns`: the cross product
`break_rounds × ('H', 'A')`, in that iteration order. -/
def break_patterns (n : ℕ) (break_gaps : Option (List ℕ)) : List (ℕ × Char) :=
  (break_rounds n break_gaps).flatMap (fun r => [(r, 'H'), (r, 'A')])

/-- The loop body of `FairSrrProblem.tight_order_break_patterns`: walk the
`(round, gap-delta)` pairs, flip the polarity on an odd delta, then yield. -/
def tightGo : Bool → List (ℕ × ℕ) → List (ℕ × Char)
  | _, [] => []
  | home, (r, d) :: rest =>
    (r, if (if d % 2 = 1 then !home else home) then 'H' else 'A') ::
      tightGo (if d % 2 = 1 then !home else home) rest

/-- `FairSrrProblem.tight_order_break_patterns`:
`zip(chain(break_rounds, break_rounds), chain((0,), break_gaps, break_gaps))`
(the zip truncates to the shorter side, as `List.zip` does) walked by
`tightGo` starting from `home = True`. -/
def tight_order_break_patterns (n : ℕ) (break_gaps : List ℕ) : List (ℕ × Char) :=
  tightGo true
    ((break_rounds n (some break_gaps) ++ break_rounds n (some break_gaps)).zip
      (0 :: (break_gaps ++ break_gaps)))

/-- Flip the letter of a break pattern. -/
def flipPat (p : ℕ × Char) : ℕ × Char := (p.1, if p.2 = 'H' then 'A' else 'H')

/-- The polarity state after `tightGo` has walked a list of
`(round, delta)` pairs. -/
def tstate (b : Bool) (l : List (ℕ × ℕ)) : Bool :=
  l.foldl (fun h p => if p.2 % 2 = 1 then !h else h) b

/-! ## FairnessMetric: `models/problem.py`, class `RankingHap`,
and `src/LeftFairnessMeasure.py` -/

/-- The 0/1 indicator `1 if h == 'H' else 0` used by `f_measure_counted_twice`. -/
def ind (h : Char) : ℤ := if h = 'H' then 1 else 0

/-- `sum(string[i:j])` for the indicator string of a H/A sequence. -/
def sliceSum (hap : List Char) (i j : ℕ) : ℤ :=
  ∑ k in Finset.Ico i j, ind (hap.getD k 'A')

/-- `RankingHap.f_measure_counted_twice`: over every interval `[i, j)` with
`j ≥ i + 2`, sum `abs(2 * sum(string[i:j]) - (j - i))`. -/
def f_measure_counted_twice (hap : List Char) : ℤ :=
  ∑ i in Finset.range hap.length, ∑ j in Finset.Ico (i + 2) (hap.length + 1),
    |2 * sliceSum hap i j - ((j : ℤ) - i)|

/-- `RankingHap.delta_t`: half of `f_measure_counted_twice`. -/
def delta_t (hap : List Char) : ℚ :=
  (f_measure_counted_twice hap : ℚ) / 2

/-- The arithmetic of `RankingHap.f_value`:
`(delta_t - (n-2)**2 / 8) / (1/24 * n * (n - 1) * (n - 2))` with
`n = len(hap) + 1`.  Total on ℚ; `f_value` below adds the
division-by-zero behaviour of the Python original. -/
def f_valueAux (hap : List Char) : ℚ :=
  let n : ℚ := hap.length + 1
  (delta_t hap - (n - 2) ^ 2 / 8) / (1 / 24 * n * (n - 1) * (n - 2))

/-- `RankingHap.f_value`, with Python's `ZeroDivisionError` (raised when the
normalisation denominator `1/24 * n * (n-1) * (n-2)` is zero) modelled as
`none`. -/
def f_value (hap : List Char) : Option ℚ :=
  if (hap.length + 1) * (hap.length + 1 - 1) * (hap.length + 1 - 2) = 0 then none
  else some (f_valueAux hap)

/-- `LeftFairnessMeasure.interval_distance`: over every interval `[i, j)` with
`j ≥ i + 2` of a raw 0/1 list, sum `abs(sum(string[i:j]) - (j - i)/2)`
(no doubling; the halves are exact in Python's floats, here rationals). -/
def interval_distance (string : List ℤ) : ℚ :=
  ∑ i in Finset.range string.length, ∑ j in Finset.Ico (i + 2) (string.length + 1),
    |(∑ k in Finset.Ico i j, (string.getD k 0) : ℚ) - ((j : ℚ) - i) / 2|

/-- The 1 ↦ H, 0 ↦ A correspondence between raw 0/1 indicators and H/A
letters. -/
def toHA (x : ℤ) : Char := if x = 1 then 'H' else 'A'

/-! ## CircleMethodGenerator: `src/circlemethod.py` -/

/-- One round of `circle_method`: the hub `n - 1` meets the head of the
current sequence (`(deque[0], fixed_player)` on even rounds, swapped on odd
ones, where `(i, j)` means `i` plays `j` at `i`'s home), and the tail of the
left half is zipped against the reversed right half. -/
def circleRound (n : ℕ) (d : List ℕ) (r : ℕ) : List (ℕ × ℕ) :=
  let left := d.take (n / 2)
  let right := d.drop (n / 2)
  (if r % 2 = 0 then (d.headD 0, n - 1) else (n - 1, d.headD 0)) ::
    (left.drop 1).zip right.reverse

/-- The round loop of `circle_method`: after each round the sequence becomes
`right + left`. -/
def circleAux (n : ℕ) : ℕ → List ℕ → ℕ → List (List (ℕ × ℕ))
  | 0, _, _ => []
  | fuel + 1, d, r =>
    circleRound n d r :: circleAux n fuel (d.drop (n / 2) ++ d.take (n / 2)) (r + 1)

/-- `circle_method(n)`: `n - 1` rounds starting from the sequence
`0 .. n - 2`. -/
def circle_method (n : ℕ) : List (List (ℕ × ℕ)) :=
  circleAux n (n - 1) (List.range (n - 1)) 0

/-! ## Literal readings of two spec sentences, for comparison with the code -/

/-- Modelled from the spec, for comparison with `motif`: the base motif as the
spec sentence describes it — two copies of the break letter, one copy of the
opposite letter, then the opposite/break pair alternated `n - 4` times.
(The sentence also asserts this buffer has length `2 * (n - 1)`.) -/
def motifC1spec (n : ℕ) (break_type : Char) : List Char :=
  let other : Char := if break_type = 'H' then 'A' else 'H'
  [break_type, break_type, other] ++ (List.replicate (n - 4) [other, break_type]).flatten

/-- Modelled from the spec, for comparison with `pattern`: rotate the cyclic
buffer LEFT by `break_round - 1` positions and take the first `n - 1`
characters. -/
def patternC1spec (n : ℕ) (p : ℕ × Char) : List Char :=
  let d := motifC1spec n p.2
  (d.rotate ((((p.1 : ℤ) - 1) % (d.length : ℤ)).toNat)).take (n - 1)

/-- The sequence evolution the spec describes for the circle method (and the
code implements): start at `0 .. n - 2`; after each round the sequence becomes
the right half followed by the left half (split at `n / 2`). -/
def claimedSeq (n : ℕ) : ℕ → List ℕ
  | 0 => List.range (n - 1)
  | r + 1 => (claimedSeq n r).drop (n / 2) ++ (claimedSeq n r).take (n / 2)

/-- Modelled from the spec, for comparison with `circleRound`: the round the
spec describes, with the hub AT HOME on even `r` and away on odd `r`. -/
def claimedRoundC3 (n : ℕ) (s : List ℕ) (r : ℕ) : List (ℕ × ℕ) :=
  (if r % 2 = 0 then (n - 1, s.headD 0) else (s.headD 0, n - 1)) ::
    ((s.take (n / 2)).drop 1).zip (s.drop (n / 2)).reverse

/-- The closed modular form of round `r` of the circle method, with
`s = r * (n / 2)`: every entry of the rotating sequence is `(i + s) mod (n-1)`
at position `i`. -/
def closedRound (n s r : ℕ) : List (ℕ × ℕ) :=
  (if r % 2 = 0 then (s % (n - 1), n - 1) else (n - 1, s % (n - 1))) ::
    (List.range (n / 2 - 1)).map fun x => ((1 + x + s) % (n - 1), (n - 2 - x + s) % (n - 1))

/-- Does the ordered match `q` realise the unordered pair `{a, b}`? -/
def pairB (a b : ℕ) (q : ℕ × ℕ) : Bool := q == (a, b) || q == (b, a)

/-! ## Construction-time validation: `FairSrrProblem.__init__` (`problem.py`)
and `MinRankingFairnessModel` (`minF.py`) -/

/-- The `assert` statements of `FairSrrProblem.__init__`, in source order. -/
inductive ConfigError where
  | nonpositive : ConfigError
  | oddTeams : ConfigError
  | gapsLength : ConfigError
  | gapsSum : ConfigError
deriving DecidableEq, Repr

/-- The immutable domain data kept by a successfully constructed
`FairSrrProblem` (Python ints modelled by ℤ). -/
structure FairSrrProblemData where
  n : ℤ
  break_gaps : Option (List ℤ)
deriving DecidableEq, Repr

/-- `FairSrrProblem.__init__`: an `AssertionError` (modelled as `ConfigError`)
is raised when `n ≤ 0`, when `n` is odd, or — only when a gap sequence is
supplied — when its length is not `n // 2` or its sum is not `n - 1`. -/
def mkFairSrrProblem (n_teams : ℤ) (break_gaps : Option (List ℤ)) :
    Except ConfigError FairSrrProblemData :=
  if ¬ n_teams > 0 then .error .nonpositive
  else if ¬ n_teams % 2 = 0 then .error .oddTeams
  else
    match break_gaps with
    | none => .ok ⟨n_teams, none⟩
    | some gs =>
      if ¬ (gs.length : ℤ) = n_teams / 2 then .error .gapsLength
      else if ¬ gs.sum = n_teams - 1 then .error .gapsSum
      else .ok ⟨n_teams, some gs⟩

/-- The ranking-HAP enforcement constraints of `MinRankingFairnessModel._build`
(`minF.py` lines 106–111): for `i, ranking_hap in enumerate(ranking_hap_set)`
and `j, ha in zip(opponents(i), ranking_hap)` emit the constraint
`sum(x[i,j,r] for r) == (1 if ha == 'H' else 0)`.  The zip silently truncates
to the shorter of the opponent list and the catalog string; the only way the
build can raise is a missing `x` key, i.e. an enumeration index `i` that is
not a player.  No string-length validation exists anywhere in the build. -/
def rankingHapTeamConstraints (n : ℕ) (ih : ℕ × List Char) :
    Except String (List ((ℕ × ℕ) × ℕ)) :=
  if ih.1 < n then
    .ok (((List.range n).filter (fun p => p ≠ ih.1)).zip ih.2 |>.map
      fun jha => ((ih.1, jha.1), if jha.2 = 'H' then 1 else 0))
  else .error (toString ih.1)

/-- Sequential collection of the per-team constraint lists: the first failing
team raises, exactly as the Python loop would. -/
def exceptCollect : List (Except String (List ((ℕ × ℕ) × ℕ))) →
    Except String (List ((ℕ × ℕ) × ℕ))
  | [] => .ok []
  | .error e :: _ => .error e
  | .ok c :: rest => (exceptCollect rest).map (c ++ ·)

/-- All enforcement constraints of a catalog, team by team. -/
def rankingHapConstraints (n : ℕ) (hapSet : List (List Char)) :
    Except String (List ((ℕ × ℕ) × ℕ)) :=
  exceptCollect (hapSet.enum.map (rankingHapTeamConstraints n))

/-- Construction of `MinRankingFairnessModel` (`__init__` plus the
catalog-dependent part of `_build`): stores the problem and builds the model;
nothing inspects the lengths of supplied catalog strings. -/
def mkMinRankingFairnessModel (prob : FairSrrProblemData)
    (ranking_hap_set : Option (List (List Char))) :
    Except String (List ((ℕ × ℕ) × ℕ)) :=
  match ranking_hap_set with
  | none => .ok []
  | some hs => rankingHapConstraints prob.n.toNat hs

/-! ## The constraint system of `MinRankingFairnessModel._build` (total mode)

The binary variables `x[i,j,r]` and `b[i,p]` are modelled by Boolean
functions, the continuous deviation variables `z[p,i,j]` by rationals; each
`quicksum` becomes the corresponding sum. -/

/-- `FairSrrProblem.opponents(i)`: all other players in increasing order. -/
def opponents (n i : ℕ) : List ℕ := (List.range n).filter (fun p => p ≠ i)

/-- The 0/1 value of a binary variable. -/
def xnum (x : ℕ → ℕ → ℕ → Bool) (i j r : ℕ) : ℕ := if x i j r then 1 else 0

/-- `sum(x[i,j,r] for r in rounds)`: how often `i` hosts `j`. -/
def homecount (n : ℕ) (x : ℕ → ℕ → ℕ → Bool) (i j : ℕ) : ℕ :=
  ∑ r in Finset.range (n - 1), xnum x i j r

/-- Constraint family: every player is assigned exactly one break pattern. -/
def satOnePattern (n : ℕ) (gaps : Option (List ℕ)) (b : ℕ → ℕ × Char → Bool) : Prop :=
  ∀ i ∈ Finset.range n, (break_patterns n gaps).countP (b i) = 1

/-- Constraint family: play every opponent exactly once (SRR). -/
def satPairOnce (n : ℕ) (x : ℕ → ℕ → ℕ → Bool) : Prop :=
  ∀ i ∈ Finset.range n, ∀ j ∈ Finset.range n, i < j →
    homecount n x i j + homecount n x j i = 1

/-- Constraint family: play exactly once in every round. -/
def satRoundOnce (n : ℕ) (x : ℕ → ℕ → ℕ → Bool) : Prop :=
  ∀ i ∈ Finset.range n, ∀ r ∈ Finset.range (n - 1),
    ((opponents n i).map fun j => xnum x i j r + xnum x j i r).sum = 1

/-- Constraint family: the per-round home indicator must match what the
assigned break pattern dictates. -/
def satBreakPattern (n : ℕ) (gaps : Option (List ℕ)) (x : ℕ → ℕ → ℕ → Bool)
    (b : ℕ → ℕ × Char → Bool) : Prop :=
  ∀ i ∈ Finset.range n, ∀ r ∈ Finset.range (n - 1),
    ((opponents n i).map fun j => xnum x i j r).sum =
      ((break_patterns n gaps).filter fun p => plays_home n p r).countP (b i)

/-- The linear expression `diff = 2 * h_p_ij - (j - i)` of `_build`, where
`h_p_ij` counts the home games of `p` against its index-ordered opponents
`i .. j-1`. -/
def zdiff (n : ℕ) (x : ℕ → ℕ → ℕ → Bool) (p i j : ℕ) : ℚ :=
  2 * (∑ k in Finset.Ico i j, (homecount n x p ((opponents n p).getD k 0) : ℚ)) -
    ((j : ℚ) - i)

/-- The same expression over ℤ (its value is always an integer). -/
def zdiffZ (n : ℕ) (x : ℕ → ℕ → ℕ → Bool) (p i j : ℕ) : ℤ :=
  2 * (∑ k in Finset.Ico i j, (homecount n x p ((opponents n p).getD k 0) : ℤ)) -
    ((j : ℤ) - i)

/-- Constraint family (total mode): `z[p,i,j] >= diff` and `z[p,i,j] >= -diff`. -/
def satZTotal (n : ℕ) (x : ℕ → ℕ → ℕ → Bool) (z : ℕ → ℕ → ℕ → ℚ) : Prop :=
  ∀ p ∈ Finset.range n, ∀ i ∈ Finset.range n, ∀ j ∈ Finset.Ico (i + 2) n,
    zdiff n x p i j ≤ z p i j ∧ -zdiff n x p i j ≤ z p i j

/-- The whole constraint system of `_build` in total (non-bandwidth) mode. -/
def SatTotal (n : ℕ) (gaps : Option (List ℕ)) (x : ℕ → ℕ → ℕ → Bool)
    (b : ℕ → ℕ × Char → Bool) (z : ℕ → ℕ → ℕ → ℚ) : Prop :=
  satOnePattern n gaps b ∧ satPairOnce n x ∧ satRoundOnce n x ∧
    satBreakPattern n gaps x b ∧ satZTotal n x z

/-- The objective of the total mode: the sum of all deviation variables
(each `z[p,i,j]` has objective coefficient 1). -/
def objective (n : ℕ) (z : ℕ → ℕ → ℕ → ℚ) : ℚ :=
  ∑ p in Finset.range n, ∑ i in Finset.range n, ∑ j in Finset.Ico (i + 2) n, z p i j

/-- The ranking HAP read off the solved `x` variables
(`print_ranking_haps`): `H` against `j` when `sum(x[i,j,r] for r) > 0.5`. -/
def hap (n : ℕ) (x : ℕ → ℕ → ℕ → Bool) (i : ℕ) : List Char :=
  (opponents n i).map fun j => if 0 < homecount n x i j then 'H' else 'A'

/-- The mean F-value over all teams of the ranking HAPs read off `x`. -/
def meanF (n : ℕ) (x : ℕ → ℕ → ℕ → Bool) : ℚ :=
  (∑ i in Finset.range n, f_valueAux (hap n x i)) / n

/-- A concrete single round-robin schedule for six teams (found by hand):
round `r` lists its matches `(home, away)`.  Team `i` realises break pattern
`(0,H), (0,A), (2,H), (2,A), (4,H), (4,A)` respectively, for the domain
`n = 6`, `break_gaps = (2,2,1)`. -/
def schedule6 : List (List (ℕ × ℕ)) :=
  [[(0, 2), (3, 1), (5, 4)],
   [(1, 0), (2, 5), (4, 3)],
   [(0, 4), (2, 1), (5, 3)],
   [(1, 5), (3, 0), (4, 2)],
   [(0, 5), (2, 3), (4, 1)]]

/-- The `x` assignment of `schedule6`. -/
def xstar (i j r : ℕ) : Bool := (schedule6.getD r []).contains (i, j)

/-- The `b` assignment matching `schedule6`. -/
def bstar (i : ℕ) (p : ℕ × Char) : Bool :=
  [((0 : ℕ), ((0 : ℕ), 'H')), (1, (0, 'A')), (2, (2, 'H')),
    (3, (2, 'A')), (4, (4, 'H')), (5, (4, 'A'))].contains (i, p)

/-- Deviation variables pinned to the absolute values of the `diff`
expressions, as the claim about the objective prescribes. -/
def zstar (p i j : ℕ) : ℚ := |zdiff 6 xstar p i j|

/-- The perfectly alternating H/A sequence of length 13 (`n = 14`). -/
def altHAP : List Char := ['H', 'A', 'H', 'A', 'H', 'A', 'H', 'A', 'H', 'A', 'H', 'A', 'H']

/-- The complement of `altHAP`. -/
def altHAPc : List Char := ['A', 'H', 'A', 'H', 'A', 'H', 'A', 'H', 'A', 'H', 'A', 'H', 'A']

/-- A near-alternating catalog string from the historical `n = 14` experiment
(`minF.py`): the first entry of the first documented ranking-HAP set. -/
def defectHAP : List Char := ['A', 'A', 'H', 'A', 'H', 'A', 'H', 'A', 'H', 'A', 'H', 'A', 'H']

end FairSchedules

namespace FairSchedules

/-! ## Claim C6: `interval_distance` versus `f_measure_counted_twice` -/

/-- A helper: the indicator sum of the mapped H/A string agrees with the raw
0/1 sum on every in-range window of a binary list. -/
theorem sliceSum_map_toHA (s : List ℤ) (hbin : ∀ x ∈ s, x = 0 ∨ x = 1)
    (i j : ℕ) (hj : j ≤ s.length) :
    (sliceSum (s.map toHA) i j : ℚ) = ∑ k in Finset.Ico i j, ((s.getD k 0 : ℤ) : ℚ) := by
  unfold sliceSum
  push_cast
  refine Finset.sum_congr rfl fun k hk => ?_
  have hk' : k < s.length := lt_of_lt_of_le (Finset.mem_Ico.mp hk).2 hj
  have hk'' : k < (s.map toHA).length := by simpa using hk'
  rw [List.getD_eq_getElem _ _ hk'', List.getD_eq_getElem _ _ hk', List.getElem_map]
  rcases hbin s[k] (List.getElem_mem hk') with h | h <;> rw [h] <;> simp [toHA, ind]

/-- **C6.** For every binary 0/1 sequence of length at least 2 and the
corresponding H/A sequence (1 ↦ H, 0 ↦ A), `f_measure_counted_twice` of the
H/A sequence equals 2 times `interval_distance` of the binary sequence. -/
theorem f_measure_eq_two_mul_interval_distance (s : List ℤ)
    (hbin : ∀ x ∈ s, x = 0 ∨ x = 1) (hlen : 2 ≤ s.length) :
    (f_measure_counted_twice (s.map toHA) : ℚ) = 2 * interval_distance s := by
  unfold f_measure_counted_twice interval_distance
  rw [List.length_map]
  push_cast
  rw [Finset.mul_sum]
  refine Finset.sum_congr rfl fun i hi => ?_
  rw [Finset.mul_sum]
  refine Finset.sum_congr rfl fun j hj => ?_
  have hj' : j ≤ s.length := by
    have := (Finset.mem_Ico.mp hj).2
    omega
  rw [sliceSum_map_toHA s hbin i j hj']
  rw [show (2 : ℚ) * |(∑ k in Finset.Ico i j, ((s.getD k 0 : ℤ) : ℚ)) - ((j : ℚ) - i) / 2| =
      |2 * ((∑ k in Finset.Ico i j, ((s.getD k 0 : ℤ) : ℚ)) - ((j : ℚ) - i) / 2)| by
    rw [abs_mul]
    norm_num]
  congr 1
  ring

/-- Witness for C6 at the binary sequence `[0, 1]`. -/
theorem f_measure_eq_two_mul_interval_distance_witness :
    (∀ x ∈ [(0 : ℤ), 1], x = 0 ∨ x = 1) ∧ 2 ≤ [(0 : ℤ), 1].length ∧
      (f_measure_counted_twice ([(0 : ℤ), 1].map toHA) : ℚ) =
        2 * interval_distance [(0 : ℤ), 1] :=
  ⟨by decide, by decide,
    f_measure_eq_two_mul_interval_distance [(0 : ℤ), 1] (by decide) (by decide)⟩

/-! ## Claim C9: division-by-zero behaviour of `f_value` -/

/-- **C9.** `f_value` fails with a division-by-zero error (modelled as `none`)
exactly on H/A sequences of length 0 or 1, because the normalisation
denominator `n(n-1)(n-2)/24` with `n = length + 1` vanishes there; on every
sequence of length at least 2 it returns the finite value `f_valueAux`. -/
theorem f_value_none_iff_short (hap : List Char) :
    (f_value hap = none ↔ hap.length ≤ 1) ∧
      (2 ≤ hap.length → f_value hap = some (f_valueAux hap)) := by
  unfold f_value
  constructor
  · split_ifs with h
    · simp only [true_iff]
      rcases Nat.mul_eq_zero.mp h with h' | h'
      · rcases Nat.mul_eq_zero.mp h' with h'' | h'' <;> omega
      · omega
    · simp only [reduceCtorEq, false_iff, not_le]
      rcases Nat.lt_or_ge 1 hap.length with hl | hl
      · exact hl
      · exfalso
        apply h
        have h0 : hap.length = 0 ∨ hap.length = 1 := by omega
        rcases h0 with h0 | h0 <;> rw [h0]
  · intro h2
    split_ifs with h
    · exfalso
      rcases Nat.mul_eq_zero.mp h with h' | h'
      · rcases Nat.mul_eq_zero.mp h' with h'' | h'' <;> omega
      · omega
    · rfl

/-! ## Claims C2 and C8: concrete F-values for `n = 14` -/

/-- Evaluation helper for length-13 H/A sequences: once the integer
`f_measure_counted_twice` is known, `f_valueAux` is `(m/2 - 18) / 91`. -/
theorem f_valueAux13 (l : List Char) (m : ℤ) (hm : f_measure_counted_twice l = m)
    (hl : l.length = 13) : f_valueAux l = ((m : ℚ) / 2 - 18) / 91 := by
  unfold f_valueAux delta_t
  rw [hm, hl]
  norm_num

/-- **C2, counterexample.** Neither the perfectly alternating length-13 H/A
sequence nor its complement has an F-value within `1e-9` of the documented
constant `0.06593406593406595`: both have F-value exactly 0. -/
theorem alternating_f_value_not_documented_constant :
    ¬ (|f_valueAux altHAP - 0.06593406593406595| ≤ 1e-9 ∨
       |f_valueAux altHAPc - 0.06593406593406595| ≤ 1e-9) := by
  have e1 : f_valueAux altHAP = 0 := by
    rw [f_valueAux13 altHAP 36 (by decide) (by decide)]
    norm_num
  have e2 : f_valueAux altHAPc = 0 := by
    rw [f_valueAux13 altHAPc 36 (by decide) (by decide)]
    norm_num
  rw [e1, e2, zero_sub, abs_neg, abs_of_pos (by norm_num)]
  push_neg
  constructor <;> norm_num

/-- **C2, amended.** For `n = 14`, the perfectly alternating H/A sequence of
length 13 (and its complement) has `f_value` exactly 0 — in particular within
the `1e-9` tolerance of 0, not of the documented minimum mean F-value
`0.06593406593406595`. -/
theorem alternating_f_value_eq_zero :
    f_valueAux altHAP = 0 ∧ f_valueAux altHAPc = 0 ∧
      f_value altHAP = some 0 ∧ f_value altHAPc = some 0 := by
  have e1 : f_valueAux altHAP = 0 := by
    rw [f_valueAux13 altHAP 36 (by decide) (by decide)]
    norm_num
  have e2 : f_valueAux altHAPc = 0 := by
    rw [f_valueAux13 altHAPc 36 (by decide) (by decide)]
    norm_num
  refine ⟨e1, e2, ?_, ?_⟩
  · rw [show f_value altHAP = some (f_valueAux altHAP) from rfl, e1]
  · rw [show f_value altHAPc = some (f_valueAux altHAPc) from rfl, e2]

/-- **C8.** The cardinality constraint of `SmallestF.build` compares
`RankingHap(h).f_value()` with the documented constant by the exact `==`
operator, not by tolerance.  At the catalog string `AAHAHAHAHAHAH` of the
historical experiment the two tests disagree in exact arithmetic: the
computed F-value is exactly `6/91`, which differs from the decimal constant
`0.06593406593406595` (so `==` rejects it) yet lies well within the `1e-9`
tolerance the spec mandates (so a toleranced comparison accepts it). -/
theorem exact_equality_vs_tolerance_on_f_value :
    f_valueAux defectHAP = 6 / 91 ∧
      f_valueAux defectHAP ≠ 0.06593406593406595 ∧
      |f_valueAux defectHAP - 0.06593406593406595| ≤ 1e-9 := by
  have e : f_valueAux defectHAP = 6 / 91 := by
    rw [f_valueAux13 defectHAP 48 (by decide) (by decide)]
    norm_num
  refine ⟨e, ?_, ?_⟩
  · rw [e]
    norm_num
  · rw [e, abs_le]
    constructor <;> norm_num

/-! ## Claim C1: expansion of break patterns -/

/-- The length of the base buffer built by `pattern`: `2n - 5` as soon as
`n ≥ 4`, and 3 below (not `2(n-1)`). -/
theorem motif_length (n : ℕ) (c : Char) : (motif n c).length = max 3 (2 * n - 5) := by
  simp only [motif, List.length_append, List.length_cons, List.length_flatten,
    List.map_replicate, List.length_nil, List.sum_replicate, smul_eq_mul]
  omega

/-- **C1, counterexample.** At the valid domain `n = 6`,
`break_gaps = (2,2,1)` and the break pattern `(2, H)` of its catalog, the
spec construction — a motif of length `2(n-1)` made of two break letters, one
opposite letter and `n-4` opposite/break pairs, rotated LEFT by
`break_round - 1` — does not reproduce `pattern`: the code motif `HHAHAHA`
has length `7 ≠ 10`, and the code output is `AHHAH` whereas the literal spec
reading yields `HAAHA`. -/
theorem pattern_spec_reading_wrong :
    (2, 'H') ∈ break_patterns 6 (some [2, 2, 1]) ∧
      ¬ ((motifC1spec 6 'H').length = 2 * (6 - 1) ∧
        pattern 6 (2, 'H') = patternC1spec 6 (2, 'H')) := by
  constructor
  · decide
  · intro hcl
    exact absurd hcl.2 (by decide)

/-- **C1, amended.** For every valid domain (even `n > 0`), break round and
letter, `pattern` equals the first `n - 1` characters obtained by reading the
cyclic base motif — two copies of the break letter, one copy of the opposite
letter, then the break/opposite pair alternated `n - 4` times, of length
`max 3 (2n - 5)` — rotated RIGHT by `break_round - 1` positions (Python
`deque.rotate`; a left rotation when `break_round = 0`), i.e. cyclically from
offset `(1 - break_round) mod length`. -/
theorem pattern_eq_rotated_motif (n : ℕ) (hn : 0 < n) (he : n % 2 = 0)
    (br : ℕ) (c : Char) :
    (motif n c).length = max 3 (2 * n - 5) ∧
      (pattern n (br, c)).length = n - 1 ∧
      ∀ i < n - 1,
        (pattern n (br, c)).getD i 'A' =
          (motif n c).getD
            ((i + ((1 - (br : ℤ)) % ((motif n c).length : ℤ)).toNat) %
              (motif n c).length) 'A' := by
  have hL : (motif n c).length = max 3 (2 * n - 5) := motif_length n c
  have hnm : n - 1 ≤ (motif n c).length := by omega
  have hLpos : 0 < (motif n c).length := by omega
  have hneg : (-(((br : ℕ) : ℤ) - 1)) = 1 - (br : ℤ) := by ring
  have hpat : pattern n (br, c) =
      ((motif n c).rotate ((1 - (br : ℤ)) % ((motif n c).length : ℤ)).toNat).take (n - 1) := by
    unfold pattern pyRotate
    rw [hneg]
  refine ⟨hL, ?_, ?_⟩
  · rw [hpat]
    simp only [List.length_take, List.length_rotate]
    omega
  · intro i hi
    set s : ℕ := ((1 - (br : ℤ)) % ((motif n c).length : ℤ)).toNat with hs
    have hi' : i < (((motif n c).rotate s).take (n - 1)).length := by
      simp only [List.length_take, List.length_rotate]
      omega
    have hi'' : i < ((motif n c).rotate s).length := by
      simp only [List.length_rotate]
      omega
    have hidx : (i + s) % (motif n c).length < (motif n c).length :=
      Nat.mod_lt _ hLpos
    rw [hpat, List.getD_eq_getElem _ _ hi', List.getElem_take,
      List.getElem_rotate, List.getD_eq_getElem _ _ hidx]

/-- Witness for C1 at `n = 6`, break pattern `(2, H)`. -/
theorem pattern_eq_rotated_motif_witness :
    0 < 6 ∧ 6 % 2 = 0 ∧
      ((motif 6 'H').length = max 3 (2 * 6 - 5) ∧
        (pattern 6 (2, 'H')).length = 6 - 1 ∧
        ∀ i < 6 - 1,
          (pattern 6 (2, 'H')).getD i 'A' =
            (motif 6 'H').getD
              ((i + ((1 - ((2 : ℕ) : ℤ)) % ((motif 6 'H').length : ℤ)).toNat) %
                (motif 6 'H').length) 'A') :=
  ⟨by decide, by decide, pattern_eq_rotated_motif 6 (by decide) (by decide) 2 'H'⟩

/-! ## Claim C7: construction-time validation -/

/-- Collecting per-team results succeeds when every team succeeds. -/
theorem exceptCollect_isOk (L : List (Except String (List ((ℕ × ℕ) × ℕ))))
    (h : ∀ e ∈ L, e.isOk = true) : (exceptCollect L).isOk = true := by
  induction L with
  | nil => rfl
  | cons e rest ih =>
    match e, h e (List.mem_cons_self e rest) with
    | .ok c, _ =>
      have hrest := ih fun e' he' => h e' (List.mem_cons_of_mem _ he')
      unfold exceptCollect
      match hcol : exceptCollect rest with
      | .ok c' => rfl
      | .error e' =>
        rw [hcol] at hrest
        exact absurd hrest (by simp [Except.isOk, Except.toBool])

/-- **C7, counterexample.** A caller-supplied H/A catalog whose string
lengths do not equal `n - 1` does NOT fail at construction time of the
optimization model: with the valid domain `n = 6`, `break_gaps = (2,2,1)` and
six catalog strings of length 3 (≠ 5), the model builds successfully — the
`zip` in `_build` silently truncates and no length validation exists. -/
theorem catalog_length_not_validated :
    mkFairSrrProblem 6 (some [2, 2, 1]) = .ok ⟨6, some [2, 2, 1]⟩ ∧
      (List.replicate 6 ['A', 'A', 'A']).all (fun s => s.length ≠ 6 - 1) = true ∧
      (mkMinRankingFairnessModel ⟨6, some [2, 2, 1]⟩
        (some (List.replicate 6 ['A', 'A', 'A']))).isOk = true := by
  exact ⟨rfl, by decide, rfl⟩

/-- **C7, amended.** Constructing the domain fails with a configuration error
exactly when `n ≤ 0`, `n` is odd, or a supplied break-gap sequence has length
`≠ n / 2` or sum `≠ n - 1`; but a caller-supplied H/A catalog is NOT
length-checked: as long as the catalog has at most `n` entries, model
construction succeeds whatever the lengths of its strings. -/
theorem construction_validation :
    (∀ (n : ℤ) (gaps : Option (List ℤ)),
        (mkFairSrrProblem n gaps).isOk = true ↔
          (0 < n ∧ n % 2 = 0 ∧
            ∀ gs, gaps = some gs → ((gs.length : ℤ) = n / 2 ∧ gs.sum = n - 1))) ∧
      (∀ (prob : FairSrrProblemData) (hs : List (List Char)),
          hs.length ≤ prob.n.toNat →
          (mkMinRankingFairnessModel prob (some hs)).isOk = true) := by
  constructor
  · intro n gaps
    rcases gaps with _ | gs
    · unfold mkFairSrrProblem
      dsimp only
      split_ifs with h1 h2 <;>
        simp only [Except.isOk, Except.toBool, true_iff, false_iff,
          reduceCtorEq]
      · exact ⟨h1, h2, fun gs hgs => by cases hgs⟩
      · rintro ⟨-, heven, -⟩
        exact h2 heven
      · rintro ⟨hpos, -⟩
        exact h1 hpos
    · unfold mkFairSrrProblem
      dsimp only
      split_ifs with h1 h2 h3 h4 <;>
        simp only [Except.isOk, Except.toBool, true_iff, false_iff,
          reduceCtorEq]
      · refine ⟨h1, h2, fun gs' hgs' => ?_⟩
        cases hgs'
        exact ⟨h3, h4⟩
      · rintro ⟨-, -, hg⟩
        exact h4 (hg gs rfl).2
      · rintro ⟨-, -, hg⟩
        exact h3 (hg gs rfl).1
      · rintro ⟨-, heven, -⟩
        exact h2 heven
      · rintro ⟨hpos, -⟩
        exact h1 hpos
  · intro prob hs hlen
    unfold mkMinRankingFairnessModel rankingHapConstraints
    refine exceptCollect_isOk _ fun e he => ?_
    rcases List.mem_map.mp he with ⟨ih, hih, rfl⟩
    have hi : ih.1 < prob.n.toNat :=
      lt_of_lt_of_le (List.fst_lt_of_mem_enum hih) hlen
    unfold rankingHapTeamConstraints
    rw [if_pos hi]
    rfl

/-! ## Claim C10: `tight_order_break_patterns` is a permutation of
`break_patterns` -/

/-- `tightGo` yields one pattern per walked pair. -/
theorem tightGo_length : ∀ (l : List (ℕ × ℕ)) (b : Bool),
    (tightGo b l).length = l.length
  | [], _ => rfl
  | (r, d) :: rest, b => by
    simp only [tightGo, List.length_cons, tightGo_length rest]

/-- Starting `tightGo` from the opposite polarity flips every emitted
letter. -/
theorem tightGo_not : ∀ (l : List (ℕ × ℕ)) (b : Bool),
    tightGo (!b) l = (tightGo b l).map flipPat
  | [], _ => rfl
  | (r, d) :: rest, b => by
    simp only [tightGo]
    have hstate : (if d % 2 = 1 then !!b else !b) = !(if d % 2 = 1 then !b else b) := by
      by_cases hd : d % 2 = 1 <;> simp [hd]
    rw [hstate, tightGo_not rest]
    cases h0 : (if d % 2 = 1 then !b else b) <;> simp [flipPat]

/-- `tightGo` distributes over append, carrying the polarity state. -/
theorem tightGo_append : ∀ (l₁ l₂ : List (ℕ × ℕ)) (b : Bool),
    tightGo b (l₁ ++ l₂) = tightGo b l₁ ++ tightGo (tstate b l₁) l₂
  | [], l₂, b => rfl
  | (r, d) :: rest, l₂, b => by
    have hst : tstate b ((r, d) :: rest) = tstate (if d % 2 = 1 then !b else b) rest := rfl
    simp only [List.cons_append, tightGo, List.append_eq, tightGo_append rest, hst]

/-- The polarity state after a walk is the starting polarity flipped once per
odd delta. -/
theorem tstate_parity : ∀ (l : List (ℕ × ℕ)) (b : Bool),
    tstate b l = if (l.countP fun q => q.2 % 2 == 1) % 2 = 1 then !b else b
  | [], b => by simp [tstate]
  | p :: l, b => by
    have step : tstate b (p :: l) = tstate (if p.2 % 2 = 1 then !b else b) l := rfl
    rw [step, tstate_parity l]
    by_cases hp : p.2 % 2 = 1 <;>
      by_cases hc : ((l.countP fun q => q.2 % 2 == 1)) % 2 = 1
    · rw [if_pos hp, if_pos hc, Bool.not_not]
      have hcons : ¬ (((p :: l).countP fun q => q.2 % 2 == 1) % 2 = 1) := by
        rw [List.countP_cons]
        simp only [hp]
        simp
        omega
      rw [if_neg hcons]
    · rw [if_pos hp, if_neg hc]
      have hcons : ((p :: l).countP fun q => q.2 % 2 == 1) % 2 = 1 := by
        rw [List.countP_cons]
        simp only [hp]
        simp
        omega
      rw [if_pos hcons]
    · have hp0 : p.2 % 2 = 0 := by omega
      rw [if_neg hp, if_pos hc]
      have hcons : ((p :: l).countP fun q => q.2 % 2 == 1) % 2 = 1 := by
        rw [List.countP_cons]
        simp only [hp0]
        simp
        omega
      rw [if_pos hcons]
    · have hp0 : p.2 % 2 = 0 := by omega
      rw [if_neg hp, if_neg hc]
      have hcons : ¬ (((p :: l).countP fun q => q.2 % 2 == 1) % 2 = 1) := by
        rw [List.countP_cons]
        simp only [hp0]
        simp
        omega
      rw [if_neg hcons]

/-- Only the parity of the first delta matters for the rest of the walk along
a zipped list. -/
theorem tightGo_zip_cons_delta (br : List ℕ) (T : List ℕ) (b : Bool) (g : ℕ) :
    tightGo b (br.zip (g :: T)) =
      tightGo (if g % 2 = 1 then !b else b) (br.zip (0 :: T)) := by
  cases br with
  | nil => rfl
  | cons r br' =>
    simp only [List.zip_cons_cons, tightGo]
    by_cases hg : g % 2 = 1 <;> simp [hg]

/-- Two opposite letters on the same round are, up to permutation, the pair
`(r, H), (r, A)`. -/
theorem pair_letters_perm (r : ℕ) (b' : Bool) (X Y : List (ℕ × Char)) (hXY : X.Perm Y) :
    ((r, if b' = true then 'H' else 'A') :: (r, if b' = true then 'A' else 'H') :: X).Perm
      ((r, 'H') :: (r, 'A') :: Y) := by
  cases b'
  · exact List.Perm.trans (List.Perm.swap _ _ _) ((hXY.cons _).cons _)
  · exact (hXY.cons _).cons _

/-- A walked list followed by its letter-flipped copy is, up to permutation,
the H/A cross product over the walked rounds. -/
theorem tightGo_flip_perm : ∀ (l : List (ℕ × ℕ)) (b : Bool),
    (tightGo b l ++ (tightGo b l).map flipPat).Perm
      ((l.map Prod.fst).flatMap fun r => [(r, 'H'), (r, 'A')])
  | [], _ => by simp [tightGo]
  | (r, d) :: rest, b => by
    simp only [tightGo, List.map_cons, List.flatMap_cons, List.cons_append]
    refine List.Perm.trans (List.Perm.cons _ List.perm_middle) ?_
    have hflip : flipPat (r, if (if d % 2 = 1 then !b else b) = true then 'H' else 'A') =
        (r, if (if d % 2 = 1 then !b else b) = true then 'A' else 'H') := by
      cases (if d % 2 = 1 then !b else b) <;> rfl
    rw [hflip]
    exact pair_letters_perm r _ _ _ (tightGo_flip_perm rest _)

/-- Parity of a sum is the parity of the number of odd entries. -/
theorem sum_parity : ∀ l : List ℕ, l.sum % 2 = (l.countP fun g => g % 2 == 1) % 2
  | [] => rfl
  | g :: l => by
    rw [List.sum_cons, List.countP_cons]
    have ih := sum_parity l
    by_cases hg : g % 2 = 1 <;> simp only [hg, beq_iff_eq, if_true, if_false,
      decide_eq_true_eq] <;> omega

/-- Every entry of a running-sum list dominates the start value. -/
theorem scanl_ge : ∀ (l : List ℕ) (a x : ℕ), x ∈ List.scanl (· + ·) a l → a ≤ x
  | [], a, x, hx => by
    simp [List.scanl] at hx
    omega
  | g :: l, a, x, hx => by
    rw [List.scanl_cons, List.singleton_append, List.mem_cons] at hx
    rcases hx with rfl | hx
    · exact le_refl _
    · have := scanl_ge l (a + g) x hx
      omega

/-- Running sums of positive gaps are strictly increasing. -/
theorem scanl_sorted : ∀ (l : List ℕ) (a : ℕ), (∀ g ∈ l, 0 < g) →
    (List.scanl (· + ·) a l).Sorted (· < ·)
  | [], a, _ => by simp [List.scanl]
  | g :: l, a, h => by
    rw [List.scanl_cons, List.singleton_append, List.sorted_cons]
    refine ⟨fun x hx => ?_, scanl_sorted l (a + g) fun g' hg' => h g' (List.mem_cons_of_mem _ hg')⟩
    have h1 := scanl_ge l (a + g) x hx
    have h2 : 0 < g := h g (List.mem_cons_self _ _)
    omega

/-- The H/A cross product over distinct rounds has no duplicates. -/
theorem flatMap_patterns_nodup : ∀ br : List ℕ, br.Nodup →
    (br.flatMap fun r => [(r, 'H'), (r, 'A')]).Nodup
  | [], _ => by simp
  | r :: br, h => by
    rw [List.flatMap_cons, List.nodup_append]
    obtain ⟨hr, hnd⟩ := List.nodup_cons.mp h
    refine ⟨by simp, flatMap_patterns_nodup br hnd, ?_⟩
    intro a ha hb
    have har : a.1 = r := by
      rcases (by simpa using ha : a = (r, 'H') ∨ a = (r, 'A')) with rfl | rfl <;> rfl
    have hmem : a.1 ∈ br := by
      rcases List.mem_flatMap.mp hb with ⟨r', hr', hmem'⟩
      rcases (by simpa using hmem' : a = (r', 'H') ∨ a = (r', 'A')) with rfl | rfl <;>
        exact hr'
    rw [har] at hmem
    exact hr hmem

/-- **C10.** For every valid domain with a supplied break-gap sequence
(length `n/2`, positive entries summing to `n-1`),
`tight_order_break_patterns` yields exactly `n` break patterns that are a
permutation of `break_patterns` without duplicates: each pair
`(break round, letter)` occurs exactly once, so the two occurrences of each
break round carry opposite letters. -/
theorem tight_order_perm_break_patterns (n : ℕ) (hn : 0 < n) (he : n % 2 = 0)
    (gaps : List ℕ) (hlen : gaps.length = n / 2) (hsum : gaps.sum = n - 1)
    (hpos : ∀ g ∈ gaps, 0 < g) :
    (tight_order_break_patterns n gaps).length = n ∧
      (tight_order_break_patterns n gaps).Perm (break_patterns n (some gaps)) ∧
      (tight_order_break_patterns n gaps).Nodup := by
  have h2n : 2 ≤ n := by omega
  have hgne : gaps ≠ [] := by
    intro h
    rw [h] at hlen
    simp at hlen
    omega
  have hsplit : gaps.dropLast ++ [gaps.getLast hgne] = gaps :=
    List.dropLast_append_getLast hgne
  set glast := gaps.getLast hgne with hglast
  set t := gaps.dropLast with ht
  have htlen : t.length = n / 2 - 1 := by
    rw [ht, List.length_dropLast, hlen]
  have hbrval : break_rounds n (some gaps) = List.scanl (· + ·) 0 t := rfl
  set br := break_rounds n (some gaps) with hbr
  have hbrlen : br.length = n / 2 := by
    rw [hbrval, List.length_scanl, htlen]
    omega
  have hD : ((0 : ℕ) :: (gaps ++ gaps)) = ((0 :: t) ++ (glast :: t)) ++ [glast] := by
    conv_lhs => rw [← hsplit]
    simp
  have hlen1 : (br ++ br).length = ((0 :: t) ++ (glast :: t)).length := by
    simp [hbrlen, htlen]
    omega
  have hzip : (br ++ br).zip ((0 : ℕ) :: (gaps ++ gaps)) =
      br.zip (0 :: t) ++ br.zip (glast :: t) := by
    rw [hD]
    rw [show (br ++ br : List ℕ) = (br ++ br) ++ [] by simp]
    rw [List.zip_append hlen1]
    rw [List.zip_append (by simp [hbrlen, htlen]; omega)]
    simp
  have htight : tight_order_break_patterns n gaps =
      tightGo true (br.zip (0 :: t)) ++
        tightGo (tstate true (br.zip (0 :: t))) (br.zip (glast :: t)) := by
    unfold tight_order_break_patterns
    rw [← hbr, hzip, tightGo_append]
  have hcount : ∀ D : List ℕ, br.length = D.length →
      ((br.zip D).countP fun q => q.2 % 2 == 1) = D.countP fun g => g % 2 == 1 := by
    intro D hD'
    have hm : List.map Prod.snd (br.zip D) = D := List.map_snd_zip br D (le_of_eq hD'.symm)
    conv_rhs => rw [← hm]
    rw [List.countP_map]
    rfl
  have hoddsum : (gaps.countP fun g => g % 2 == 1) % 2 = 1 := by
    have := sum_parity gaps
    rw [hsum] at this
    omega
  have h0len : br.length = ((0 : ℕ) :: t).length := by
    simp only [List.length_cons, hbrlen, htlen]
    omega
  have hrel : ((t.countP fun g => g % 2 == 1) + if glast % 2 = 1 then 1 else 0) % 2 = 1 := by
    have h1 : (gaps.countP fun g => g % 2 == 1) =
        (t.countP fun g => g % 2 == 1) + if glast % 2 = 1 then 1 else 0 := by
      conv_lhs => rw [← hsplit]
      rw [List.countP_append]
      by_cases hg : glast % 2 = 1 <;> simp [List.countP_cons, hg]
    omega
  have hc0 : (((0 : ℕ) :: t).countP fun g => g % 2 == 1) = t.countP fun g => g % 2 == 1 := by
    simp [List.countP_cons]
  have hs1 : tstate true (br.zip ((0 : ℕ) :: t)) =
      (if (t.countP fun g => g % 2 == 1) % 2 = 1 then false else true) := by
    rw [tstate_parity, hcount _ h0len, hc0, Bool.not_true]
  have hflip : tightGo (tstate true (br.zip (0 :: t))) (br.zip (glast :: t)) =
      (tightGo true (br.zip (0 :: t))).map flipPat := by
    rw [tightGo_zip_cons_delta]
    have hstate : (if glast % 2 = 1 then !(tstate true (br.zip (0 :: t)))
        else tstate true (br.zip (0 :: t))) = false := by
      by_cases hg : glast % 2 = 1
      · have hct : ¬ ((t.countP fun g => g % 2 == 1) % 2 = 1) := by
          rw [if_pos hg] at hrel
          omega
        rw [if_pos hg, hs1, if_neg hct]
        rfl
      · have hct : (t.countP fun g => g % 2 == 1) % 2 = 1 := by
          rw [if_neg hg] at hrel
          omega
        rw [if_neg hg, hs1, if_pos hct]
    rw [hstate, show (false : Bool) = !true from rfl, tightGo_not]
  have hmapfst : (br.zip ((0 : ℕ) :: t)).map Prod.fst = br :=
    List.map_fst_zip _ _ (by simp [hbrlen, htlen]; omega)
  have hperm : (tight_order_break_patterns n gaps).Perm (break_patterns n (some gaps)) := by
    rw [htight, hflip]
    have hp := tightGo_flip_perm (br.zip ((0 : ℕ) :: t)) true
    rw [hmapfst] at hp
    exact hp
  have hlen2 : (tight_order_break_patterns n gaps).length = n := by
    unfold tight_order_break_patterns
    rw [← hbr, tightGo_length, List.length_zip]
    simp [hbrlen, hlen]
    omega
  have hbrnodup : br.Nodup :=
    (scanl_sorted t 0 fun g hg => hpos g ((List.dropLast_sublist gaps).subset hg)).nodup
  have hbpnodup : (break_patterns n (some gaps)).Nodup := flatMap_patterns_nodup br hbrnodup
  exact ⟨hlen2, hperm, hperm.nodup_iff.mpr hbpnodup⟩

/-- Witness for C10 at `n = 6`, `break_gaps = (2,2,1)`. -/
theorem tight_order_perm_break_patterns_witness :
    0 < 6 ∧ 6 % 2 = 0 ∧ [2, 2, 1].length = 6 / 2 ∧ [2, 2, 1].sum = 6 - 1 ∧
      (∀ g ∈ [2, 2, 1], 0 < g) ∧
      ((tight_order_break_patterns 6 [2, 2, 1]).length = 6 ∧
        (tight_order_break_patterns 6 [2, 2, 1]).Perm (break_patterns 6 (some [2, 2, 1])) ∧
        (tight_order_break_patterns 6 [2, 2, 1]).Nodup) :=
  ⟨by decide, by decide, by decide, by decide, by decide,
    tight_order_perm_break_patterns 6 (by decide) (by decide) [2, 2, 1]
      (by decide) (by decide) (by decide)⟩

/-! ## Claims C3 and C4: the circle method -/

/-- The round loop emits exactly `fuel` rounds. -/
theorem circleAux_length (n : ℕ) : ∀ (fuel : ℕ) (d : List ℕ) (r : ℕ),
    (circleAux n fuel d r).length = fuel
  | 0, _, _ => rfl
  | fuel + 1, d, r => by
    simp only [circleAux, List.length_cons, circleAux_length n fuel]

/-- Round `r0 + k` of the loop, started at round `r0` on the sequence the
spec describes for `r0`, is `circleRound` of the sequence for `r0 + k`. -/
theorem circleAux_claimedSeq (n : ℕ) : ∀ (fuel k r0 : ℕ), k < fuel →
    (circleAux n fuel (claimedSeq n r0) r0).getD k [] =
      circleRound n (claimedSeq n (r0 + k)) (r0 + k)
  | 0, k, r0, hk => absurd hk (Nat.not_lt_zero k)
  | fuel + 1, 0, r0, _ => by
    simp [circleAux]
  | fuel + 1, k + 1, r0, hk => by
    have hstep : (claimedSeq n r0).drop (n / 2) ++ (claimedSeq n r0).take (n / 2) =
        claimedSeq n (r0 + 1) := rfl
    have ih := circleAux_claimedSeq n fuel k (r0 + 1) (by omega)
    have harg : r0 + 1 + k = r0 + (k + 1) := by omega
    rw [harg] at ih
    simp only [circleAux, List.getD_cons_succ, hstep, ih]

/-- **C3, counterexample.** In round 0 of `circle_method(6)` the hub team 5 is
AWAY, not at home: the first match is `(0, 5)` (team 0 at home), while the
claimed description with the hub at home on even rounds predicts `(5, 0)`. -/
theorem circle_hub_home_on_even_wrong :
    (circle_method 6).getD 0 [] ≠ claimedRoundC3 6 (claimedSeq 6 0) 0 := by decide

/-- **C3, amended.** For every even `n > 0` and round `r < n - 1` of
`circle_method(n)`, the stationary hub team `n - 1` plays the first element of
the current sequence, with the hub AWAY when `r` is even (the first element at
home) and at home when `r` is odd; the remaining teams are paired by zipping
the left half of the sequence (after its first element) against the reversed
right half; and the sequence evolves by becoming right half followed by left
half after each round (`claimedSeq`). -/
theorem circle_method_round_structure (n : ℕ) (hn : 0 < n) (he : n % 2 = 0)
    (r : ℕ) (hr : r < n - 1) :
    (circle_method n).getD r [] =
      (if r % 2 = 0 then ((claimedSeq n r).headD 0, n - 1)
        else (n - 1, (claimedSeq n r).headD 0)) ::
        (((claimedSeq n r).take (n / 2)).drop 1).zip
          ((claimedSeq n r).drop (n / 2)).reverse := by
  have h := circleAux_claimedSeq n (n - 1) r 0 hr
  simpa [circle_method, circleRound] using h

/-- Witness for C3 at `n = 6`, round `r = 1`. -/
theorem circle_method_round_structure_witness :
    0 < 6 ∧ 6 % 2 = 0 ∧ 1 < 6 - 1 ∧
      (circle_method 6).getD 1 [] =
        (if 1 % 2 = 0 then ((claimedSeq 6 1).headD 0, 6 - 1)
          else (6 - 1, (claimedSeq 6 1).headD 0)) ::
          (((claimedSeq 6 1).take (6 / 2)).drop 1).zip
            ((claimedSeq 6 1).drop (6 / 2)).reverse :=
  ⟨by decide, by decide, by decide,
    circle_method_round_structure 6 (by decide) (by decide) 1 (by decide)⟩

/-- The rotating sequence is always a permutation of `0 .. n-2`. -/
theorem claimedSeq_perm (n : ℕ) : ∀ r, (claimedSeq n r).Perm (List.range (n - 1))
  | 0 => List.Perm.refl _
  | r + 1 => by
    have h : claimedSeq n (r + 1) =
        (claimedSeq n r).drop (n / 2) ++ (claimedSeq n r).take (n / 2) := rfl
    rw [h]
    refine List.Perm.trans (List.perm_append_comm) ?_
    rw [List.take_append_drop]
    exact claimedSeq_perm n r

/-- The rotating sequence always has length `n - 1`. -/
theorem claimedSeq_length (n r : ℕ) : (claimedSeq n r).length = n - 1 := by
  have := (claimedSeq_perm n r).length_eq
  simpa using this

/-- Closed form of the rotating sequence: a left rotation by `r * (n / 2)`. -/
theorem claimedSeq_closed (n : ℕ) (h2 : 2 ≤ n) :
    ∀ r, claimedSeq n r = (List.range (n - 1)).rotate (r * (n / 2))
  | 0 => by simp [claimedSeq]
  | r + 1 => by
    have h : claimedSeq n (r + 1) =
        (claimedSeq n r).drop (n / 2) ++ (claimedSeq n r).take (n / 2) := rfl
    have hh : n / 2 ≤ (claimedSeq n r).length := by
      rw [claimedSeq_length]
      omega
    rw [h, ← List.rotate_eq_drop_append_take hh, claimedSeq_closed n h2 r,
      List.rotate_rotate]
    congr 1
    ring

/-- Entry `i` of the rotated base sequence is `(i + s) mod (n - 1)`. -/
theorem rotate_range_getElem (m s i : ℕ) (hi : i < ((List.range m).rotate s).length) :
    ((List.range m).rotate s)[i] = (i + s) % m := by
  rw [List.getElem_rotate]
  simp

/-- The rotated base sequence starts at `s mod (n - 1)`. -/
theorem rotate_range_headD (m s : ℕ) (hm : 0 < m) :
    ((List.range m).rotate s).headD 0 = s % m := by
  have hlen : 0 < ((List.range m).rotate s).length := by simpa using hm
  have h0 : ((List.range m).rotate s)[0]? = some ((0 + s) % m) := by
    rw [List.getElem?_eq_getElem hlen, rotate_range_getElem]
  rw [List.headD_eq_head?, List.head?_eq_getElem?, h0]
  simp

/-- A round of the circle method on the rotated sequence, in closed modular
form. -/
theorem circleRound_rotate (n : ℕ) (h2 : 2 ≤ n) (he : n % 2 = 0) (s r : ℕ) :
    circleRound n ((List.range (n - 1)).rotate s) r = closedRound n s r := by
  have hmpos : 0 < n - 1 := by omega
  have hrotlen : ((List.range (n - 1)).rotate s).length = n - 1 := by simp
  have hhm : n / 2 ≤ n - 1 := by omega
  unfold circleRound closedRound
  dsimp only
  congr 1
  · rw [rotate_range_headD (n - 1) s hmpos]
  · apply List.ext_getElem
    · simp only [List.length_zip, List.length_drop, List.length_take,
        List.length_reverse, List.length_map, List.length_range, hrotlen]
      omega
    · intro t h1 h2'
      simp only [List.getElem_zip, List.getElem_map, List.getElem_range,
        List.getElem_reverse, List.getElem_drop, List.getElem_take,
        List.length_reverse, List.length_drop, hrotlen, rotate_range_getElem]
      rw [Prod.mk.injEq]
      refine ⟨?_, ?_⟩
      · congr 1
      · congr 1
        have ht : t < n / 2 - 1 := by
          simp only [List.length_zip, List.length_drop, List.length_take,
            List.length_reverse, hrotlen] at h1
          omega
        omega

/-- The whole schedule in closed modular form. -/
theorem circle_method_eq_closed (n : ℕ) (h2 : 2 ≤ n) (he : n % 2 = 0) :
    circle_method n = (List.range (n - 1)).map fun r => closedRound n (r * (n / 2)) r := by
  apply List.ext_getElem
  · simp [circle_method, circleAux_length n]
  · intro r h1 hr2
    have hr : r < n - 1 := by
      simpa [circle_method, circleAux_length n] using h1
    have hgd := circleAux_claimedSeq n (n - 1) r 0 hr
    simp only [Nat.zero_add] at hgd
    rw [List.getElem_map, List.getElem_range, ← List.getD_eq_getElem _ [] h1]
    show (circleAux n (n - 1) (claimedSeq n 0) 0).getD r [] = closedRound n (r * (n / 2)) r
    rw [hgd, claimedSeq_closed n h2 r, circleRound_rotate n h2 he]

/-- Interleaving the two sides of a zip is, up to permutation, the two lists
concatenated. -/
theorem zip_flat_perm : ∀ (A B : List ℕ), A.length = B.length →
    ((A.zip B).flatMap fun q => [q.1, q.2]).Perm (A ++ B)
  | [], B, h => by
    have : B = [] := List.length_eq_zero.mp (by simpa using h.symm)
    simp [this]
  | a :: A', B, h => by
    match B, h with
    | b :: B', h =>
      simp only [List.zip_cons_cons, List.flatMap_cons, List.cons_append]
      refine List.Perm.cons _ ?_
      refine List.Perm.trans (List.Perm.cons _ (zip_flat_perm A' B' (by simpa using h))) ?_
      exact List.perm_middle.symm

/-- The teams of one round of the circle method are the hub plus the current
sequence. -/
theorem circleRound_teams_perm (n : ℕ) (h2 : 2 ≤ n) (he : n % 2 = 0)
    (d : List ℕ) (hd : d.length = n - 1) (r : ℕ) :
    ((circleRound n d r).flatMap fun q => [q.1, q.2]).Perm ((n - 1) :: d) := by
  have hdne : d ≠ [] := by
    intro h
    rw [h] at hd
    simp at hd
    omega
  have hhead : d.headD 0 :: d.drop 1 = d := by
    cases d with
    | nil => exact absurd rfl hdne
    | cons a l => simp
  have hlenA : ((d.take (n / 2)).drop 1).length = n / 2 - 1 := by
    simp only [List.length_drop, List.length_take, hd]
    omega
  have hlenB : ((d.drop (n / 2)).reverse).length = n / 2 - 1 := by
    simp only [List.length_reverse, List.length_drop, hd]
    omega
  unfold circleRound
  dsimp only
  have hz := zip_flat_perm ((d.take (n / 2)).drop 1) ((d.drop (n / 2)).reverse)
    (by rw [hlenA, hlenB])
  have hAB : (((d.take (n / 2)).drop 1) ++ (d.drop (n / 2))).Perm (d.drop 1) := by
    have hA : (d.take (n / 2)).drop 1 = (d.drop 1).take (n / 2 - 1) := by
      rw [List.drop_take]
    have hB : (d.drop 1).drop (n / 2 - 1) = d.drop (n / 2) := by
      rw [List.drop_drop]
      congr 1
      omega
    rw [hA, ← hB, List.take_append_drop]
  have htail : ((((d.take (n / 2)).drop 1).zip ((d.drop (n / 2)).reverse)).flatMap
      fun q => [q.1, q.2]).Perm (d.drop 1) := by
    refine hz.trans ?_
    refine List.Perm.trans (List.Perm.append_left _ (List.reverse_perm _)) hAB
  by_cases hr : r % 2 = 0
  · rw [if_pos hr]
    simp only [List.flatMap_cons]
    refine List.Perm.trans (List.Perm.append_right _ (List.Perm.refl [d.headD 0, n - 1])) ?_
    show ((d.headD 0 :: (n - 1) :: []) ++ _).Perm _
    simp only [List.cons_append, List.nil_append]
    refine List.Perm.trans (List.Perm.swap (n - 1) (d.headD 0) _) ?_
    refine List.Perm.cons _ ?_
    refine List.Perm.trans (List.Perm.cons _ htail) ?_
    rw [hhead]
  · rw [if_neg hr]
    simp only [List.flatMap_cons, List.cons_append, List.nil_append]
    refine List.Perm.cons _ ?_
    refine List.Perm.trans (List.Perm.cons _ htail) ?_
    rw [hhead]

/-- Sums over `List.range` as `Finset` sums. -/
theorem list_sum_range : ∀ (k : ℕ) (f : ℕ → ℕ),
    ((List.range k).map f).sum = ∑ i in Finset.range k, f i
  | 0, f => rfl
  | k + 1, f => by
    rw [List.range_succ, List.map_append, List.sum_append, Finset.sum_range_succ,
      list_sum_range k f]
    simp

/-- `countP` over `List.range` as a `Finset` indicator sum. -/
theorem countP_list_range (q : ℕ → Bool) : ∀ k,
    (List.range k).countP q = ∑ t in Finset.range k, if q t then 1 else 0
  | 0 => rfl
  | k + 1 => by
    rw [List.range_succ, List.countP_append, Finset.sum_range_succ,
      countP_list_range q k]
    simp [List.countP_cons]

/-- `pairB` holds exactly on the two orientations of the pair. -/
theorem pairB_eq_true (a b : ℕ) (q : ℕ × ℕ) :
    pairB a b q = true ↔ q = (a, b) ∨ q = (b, a) := by
  simp [pairB]

/-- The pair count of one closed round, split into its hub match and its
modular matches. -/
theorem countP_closedRound (n s r a b : ℕ) :
    (closedRound n s r).countP (pairB a b) =
      (if pairB a b (if r % 2 = 0 then (s % (n - 1), n - 1)
        else (n - 1, s % (n - 1))) then 1 else 0) +
      ∑ t in Finset.range (n / 2 - 1),
        if pairB a b ((1 + t + s) % (n - 1), (n - 2 - t + s) % (n - 1)) then 1 else 0 := by
  unfold closedRound
  rw [List.countP_cons, List.countP_map, countP_list_range]
  simp only [Function.comp]
  omega

/-- Casting is injective below the modulus. -/
theorem natCast_inj_of_lt (m u v : ℕ) (hm : 0 < m) (hu : u < m) (hv : v < m)
    (h : (u : ZMod m) = v) : u = v := by
  haveI : NeZero m := ⟨by omega⟩
  have hval := congrArg ZMod.val h
  rwa [ZMod.val_cast_of_lt hu, ZMod.val_cast_of_lt hv] at hval

/-- A positive natural below the modulus does not vanish in `ZMod`. -/
theorem natCast_ne_zero_of_bound (m k : ℕ) (h0 : 0 < k) (hk : k < m) :
    ¬ ((k : ZMod m) = 0) := by
  haveI : NeZero m := ⟨by omega⟩
  intro h
  have hdvd := (ZMod.natCast_zmod_eq_zero_iff_dvd k m).mp h
  have := Nat.le_of_dvd h0 hdvd
  omega

/-- Twice the half of an even `n` is 1 modulo `n - 1`. -/
theorem two_h_cast (n : ℕ) (h2 : 2 ≤ n) (he : n % 2 = 0) :
    ((2 * (n / 2) : ℕ) : ZMod (n - 1)) = 1 := by
  have hn : 2 * (n / 2) = (n - 1) + 1 := by omega
  rw [hn]
  push_cast
  rw [ZMod.natCast_self]
  ring

/-- The hub opponent determines the round: multiplication by `n / 2` is
injective modulo `n - 1`. -/
theorem mul_half_mod_inj (n : ℕ) (h2 : 2 ≤ n) (he : n % 2 = 0) (r r' : ℕ)
    (hr : r < n - 1) (hr' : r' < n - 1)
    (h : r * (n / 2) % (n - 1) = r' * (n / 2) % (n - 1)) : r = r' := by
  have key : ∀ x : ℕ, x < n - 1 → (x * (n / 2) % (n - 1) * 2) % (n - 1) = x := by
    intro x hx
    rw [Nat.mod_mul_mod]
    have e1 : x * (n / 2) * 2 = x + x * (n - 1) := by
      have : 2 * (n / 2) = (n - 1) + 1 := by omega
      calc x * (n / 2) * 2 = x * (2 * (n / 2)) := by ring
        _ = x * ((n - 1) + 1) := by rw [this]
        _ = x + x * (n - 1) := by ring
    rw [e1, Nat.add_mul_mod_self_right]
    exact Nat.mod_eq_of_lt hx
  have k1 := key r hr
  have k2 := key r' hr'
  rw [h] at k1
  omega

/-- A sum of naturals each at most 1 and supported in a single index is at
most 1. -/
theorem sum_range_le_one (k ρ : ℕ) (g : ℕ → ℕ)
    (hle : ∀ r, r < k → g r ≤ 1) (huni : ∀ r, r < k → g r ≠ 0 → r = ρ) :
    (∑ r in Finset.range k, g r) ≤ 1 := by
  by_cases hρ : ρ < k
  · have hsum := Finset.sum_eq_single ρ
      (fun b hb hbne => by
        by_contra hcon
        exact hbne (huni b (Finset.mem_range.mp hb) hcon))
      (fun h => absurd (Finset.mem_range.mpr hρ) h)
    rw [hsum]
    exact hle ρ hρ
  · have hall : ∀ r ∈ Finset.range k, g r = 0 := by
      intro r hr
      by_contra hcon
      have hrk := Finset.mem_range.mp hr
      have := huni r hrk hcon
      omega
    rw [Finset.sum_congr rfl hall]
    simp

/-- An indicator sum with an injectivity property is at most 1. -/
theorem sum_ite_le_one (k : ℕ) (P : ℕ → Prop) [DecidablePred P]
    (huni : ∀ t t', t < k → t' < k → P t → P t' → t = t') :
    (∑ t in Finset.range k, if P t then 1 else 0) ≤ 1 := by
  by_cases hex : ∃ t, t < k ∧ P t
  · obtain ⟨ρ, hρk, hρP⟩ := hex
    refine sum_range_le_one k ρ _ (fun r _ => by split_ifs <;> omega) ?_
    intro r hrk hne
    have hP : P r := by
      by_contra hcon
      rw [if_neg hcon] at hne
      omega
    exact huni r ρ hrk hρk hP hρP
  · push_neg at hex
    have hall : ∀ t ∈ Finset.range k, (if P t then 1 else 0) = 0 := by
      intro t ht
      rw [if_neg (hex t (Finset.mem_range.mp ht))]
    rw [Finset.sum_congr rfl hall]
    simp

/-- The first component of a modular match, seen in `ZMod (n-1)`. -/
theorem comp1_cast (n t s : ℕ) :
    (((1 + t + s) % (n - 1) : ℕ) : ZMod (n - 1)) = 1 + t + s := by
  rw [ZMod.natCast_mod]
  push_cast
  ring

/-- The second component of a modular match, seen in `ZMod (n-1)`. -/
theorem comp2_cast (n t s : ℕ) (h2 : 2 ≤ n) (ht : t ≤ n - 2) :
    (((n - 2 - t + s) % (n - 1) : ℕ) : ZMod (n - 1)) = (s : ZMod (n - 1)) - 1 - t := by
  rw [ZMod.natCast_mod]
  calc ((n - 2 - t + s : ℕ) : ZMod (n - 1))
      = ((n - 2 - t : ℕ) : ZMod (n - 1)) + s := by push_cast; ring
    _ = (((n - 2 : ℕ) : ZMod (n - 1)) - t) + s := by rw [Nat.cast_sub ht]
    _ = ((((n - 1) - 1 : ℕ) : ZMod (n - 1)) - t) + s := by
        rw [show (n - 2 : ℕ) = (n - 1) - 1 from by omega]
    _ = ((((n - 1) : ℕ) : ZMod (n - 1)) - 1 - t) + s := by
        rw [Nat.cast_sub (by omega : 1 ≤ n - 1)]
        push_cast
        ring
    _ = (0 - 1 - t) + s := by rw [ZMod.natCast_self]
    _ = (s : ZMod (n - 1)) - 1 - t := by ring

/-- If a modular match of round `r` realises the pair `{a, b}`, then
`r ≡ a + b` modulo `n - 1`. -/
theorem nonhub_round_det (n : ℕ) (h2 : 2 ≤ n) (he : n % 2 = 0) (a b r t : ℕ)
    (ht : t < n / 2 - 1)
    (hhit : pairB a b ((1 + t + r * (n / 2)) % (n - 1),
      (n - 2 - t + r * (n / 2)) % (n - 1)) = true) :
    (r : ZMod (n - 1)) = (a : ZMod (n - 1)) + b := by
  have htb : t ≤ n - 2 := by omega
  have hsum : (1 + t + r * (n / 2)) % (n - 1) + (n - 2 - t + r * (n / 2)) % (n - 1) =
      a + b := by
    rcases (pairB_eq_true _ _ _).mp hhit with heq | heq
    · have h1 := congrArg Prod.fst heq
      have hsnd := congrArg Prod.snd heq
      simp at h1 hsnd
      omega
    · have h1 := congrArg Prod.fst heq
      have hsnd := congrArg Prod.snd heq
      simp at h1 hsnd
      omega
  have hcast := congrArg (fun x : ℕ => (x : ZMod (n - 1))) hsum
  simp only [Nat.cast_add] at hcast
  rw [comp1_cast, comp2_cast n t _ h2 htb] at hcast
  have hr2 : ((r * (n / 2) : ℕ) : ZMod (n - 1)) * 2 = (r : ZMod (n - 1)) := by
    have h1 := two_h_cast n h2 he
    push_cast at h1 ⊢
    calc (r : ZMod (n - 1)) * (((n / 2) : ℕ) : ZMod (n - 1)) * 2 =
        (r : ZMod (n - 1)) * (2 * (((n / 2) : ℕ) : ZMod (n - 1))) := by ring
      _ = (r : ZMod (n - 1)) * 1 := by rw [h1]
      _ = (r : ZMod (n - 1)) := by ring
  calc (r : ZMod (n - 1)) = ((r * (n / 2) : ℕ) : ZMod (n - 1)) * 2 := hr2.symm
    _ = (a : ZMod (n - 1)) + b := by linear_combination hcast

/-- Within one round, at most one modular match realises a given pair. -/
theorem nonhub_t_unique (n : ℕ) (h2 : 2 ≤ n) (he : n % 2 = 0) (a b s t t' : ℕ)
    (ht : t < n / 2 - 1) (ht' : t' < n / 2 - 1)
    (hhit : pairB a b ((1 + t + s) % (n - 1), (n - 2 - t + s) % (n - 1)) = true)
    (hhit' : pairB a b ((1 + t' + s) % (n - 1), (n - 2 - t' + s) % (n - 1)) = true) :
    t = t' := by
  have hmpos : 0 < n - 1 := by omega
  have htb : t ≤ n - 2 := by omega
  have htb' : t' ≤ n - 2 := by omega
  have hfirst : ∀ u u' : ℕ, u < n / 2 - 1 → u' < n / 2 - 1 →
      (1 + u + s) % (n - 1) = (1 + u' + s) % (n - 1) → u = u' := by
    intro u u' hu hu' hmod
    have hc := congrArg (fun x : ℕ => (x : ZMod (n - 1))) hmod
    simp only [comp1_cast] at hc
    have : (u : ZMod (n - 1)) = u' := by linear_combination hc
    exact natCast_inj_of_lt (n - 1) u u' hmpos (by omega) (by omega) this
  have hmix : ∀ u u' : ℕ, u < n / 2 - 1 → u' < n / 2 - 1 →
      (n - 2 - u + s) % (n - 1) = (1 + u' + s) % (n - 1) → False := by
    intro u u' hu hu' hmod
    have hub : u ≤ n - 2 := by omega
    have hc := congrArg (fun x : ℕ => (x : ZMod (n - 1))) hmod
    simp only [comp1_cast, comp2_cast n u s h2 hub] at hc
    have hzero : ((2 + u + u' : ℕ) : ZMod (n - 1)) = 0 := by
      push_cast
      linear_combination -hc
    refine natCast_ne_zero_of_bound (n - 1) (2 + u + u') (by omega) (by omega) hzero
  rcases (pairB_eq_true _ _ _).mp hhit with heq | heq <;>
    rcases (pairB_eq_true _ _ _).mp hhit' with heq' | heq'
  · have e1 := congrArg Prod.fst heq
    have e2 := congrArg Prod.fst heq'
    simp at e1 e2
    exact hfirst t t' ht ht' (by omega)
  · have e1 := congrArg Prod.snd heq
    have e2 := congrArg Prod.fst heq'
    simp at e1 e2
    exact absurd (show (n - 2 - t + s) % (n - 1) = (1 + t' + s) % (n - 1) by omega)
      (fun hcon => hmix t t' ht ht' hcon)
  · have e1 := congrArg Prod.fst heq
    have e2 := congrArg Prod.snd heq'
    simp at e1 e2
    exact absurd (show (n - 2 - t' + s) % (n - 1) = (1 + t + s) % (n - 1) by omega)
      (fun hcon => hmix t' t ht' ht hcon)
  · have e1 := congrArg Prod.fst heq
    have e2 := congrArg Prod.fst heq'
    simp at e1 e2
    exact hfirst t t' ht ht' (by omega)

/-- The two components of a modular match are distinct teams. -/
theorem nonhub_comps_ne (n : ℕ) (h2 : 2 ≤ n) (he : n % 2 = 0) (s t : ℕ)
    (ht : t < n / 2 - 1) :
    (1 + t + s) % (n - 1) ≠ (n - 2 - t + s) % (n - 1) := by
  intro hcon
  have htb : t ≤ n - 2 := by omega
  have hc := congrArg (fun x : ℕ => (x : ZMod (n - 1))) hcon
  simp only [comp1_cast, comp2_cast n t s h2 htb] at hc
  have hzero : ((2 + 2 * t : ℕ) : ZMod (n - 1)) = 0 := by
    push_cast
    linear_combination hc
  exact natCast_ne_zero_of_bound (n - 1) (2 + 2 * t) (by omega) (by omega) hzero

/-- The canonical round of a hub opponent solves the hub equation. -/
theorem hub_solution (n : ℕ) (h2 : 2 ≤ n) (he : n % 2 = 0) (a : ℕ) (ha : a < n - 1) :
    ((2 * a) % (n - 1)) * (n / 2) % (n - 1) = a := by
  rw [Nat.mod_mul_mod]
  have e1 : 2 * a * (n / 2) = a + a * (n - 1) := by
    have h21 : 2 * (n / 2) = (n - 1) + 1 := by omega
    calc 2 * a * (n / 2) = a * (2 * (n / 2)) := by ring
      _ = a * ((n - 1) + 1) := by rw [h21]
      _ = a + a * (n - 1) := by ring
  rw [e1, Nat.add_mul_mod_self_right]
  exact Nat.mod_eq_of_lt ha

/-- A match `(x, y)` with `x < y` is counted by exactly one ordered pair
`(a, b)` with `a < b < n`. -/
theorem singlePairAux (n x y : ℕ) (hxy : x < y) (hy : y < n) :
    (∑ b in Finset.range n, ∑ a in Finset.range b,
      if pairB a b (x, y) then 1 else 0) = 1 := by
  have hinner : ∀ b' ∈ Finset.range n,
      (∑ a in Finset.range b', if pairB a b' (x, y) then 1 else 0) =
        if b' = y then 1 else 0 := by
    intro b' hb'
    by_cases hby : b' = y
    · subst hby
      rw [if_pos rfl]
      have hconv : ∀ a ∈ Finset.range b', (if pairB a b' (x, b') then 1 else 0) =
          if a = x then 1 else 0 := by
        intro a ha
        by_cases hax : a = x
        · subst hax
          rw [if_pos rfl, if_pos (by rw [pairB_eq_true]; exact Or.inl rfl)]
        · rw [if_neg hax, if_neg]
          intro hcon
          rcases (pairB_eq_true _ _ _).mp hcon with heq | heq
          · have := congrArg Prod.fst heq
            simp at this
            exact hax this.symm
          · have h1 := congrArg Prod.fst heq
            have h2 := congrArg Prod.snd heq
            simp at h1 h2
            omega
      rw [Finset.sum_congr rfl hconv]
      rw [Finset.sum_ite_eq' (Finset.range b') x fun _ => 1]
      rw [if_pos (Finset.mem_range.mpr hxy)]
    · rw [if_neg hby]
      apply Finset.sum_eq_zero
      intro a ha
      rw [if_neg]
      intro hcon
      have hab := Finset.mem_range.mp ha
      rcases (pairB_eq_true _ _ _).mp hcon with heq | heq
      · have h1 := congrArg Prod.snd heq
        simp at h1
        exact hby h1.symm
      · have h1 := congrArg Prod.fst heq
        have h2 := congrArg Prod.snd heq
        simp at h1 h2
        omega
  rw [Finset.sum_congr rfl hinner]
  rw [Finset.sum_ite_eq' (Finset.range n) y fun _ => 1]
  rw [if_pos (Finset.mem_range.mpr hy)]

/-- `pairB` does not care about the orientation of the match. -/
theorem pairB_swap (a b x y : ℕ) : pairB a b (x, y) = pairB a b (y, x) := by
  rw [Bool.eq_iff_iff, pairB_eq_true, pairB_eq_true]
  constructor <;> rintro (heq | heq) <;>
    simp only [Prod.mk.injEq] at heq ⊢ <;> omega

/-- Any match of two distinct teams below `n` is counted by exactly one
ordered pair. -/
theorem singlePair (n x y : ℕ) (hx : x < n) (hy : y < n) (hxy : x ≠ y) :
    (∑ b in Finset.range n, ∑ a in Finset.range b,
      if pairB a b (x, y) then 1 else 0) = 1 := by
  rcases Nat.lt_or_ge x y with h | h
  · exact singlePairAux n x y h hy
  · have hyx : y < x := by omega
    have hcongr : ∀ b' ∈ Finset.range n, (∑ a in Finset.range b',
        if pairB a b' (x, y) then 1 else 0) = (∑ a in Finset.range b',
        if pairB a b' (y, x) then 1 else 0) := by
      intro b' _
      refine Finset.sum_congr rfl fun a _ => ?_
      rw [pairB_swap]
    rw [Finset.sum_congr rfl hcongr]
    exact singlePairAux n y x hyx hx

/-- Exchange lemma: summing the pair counts over all ordered pairs yields the
number of matches, as long as every match is between two distinct teams
below `n`. -/
theorem sumPairs (n : ℕ) : ∀ (L : List (ℕ × ℕ)),
    (∀ q ∈ L, q.1 < n ∧ q.2 < n ∧ q.1 ≠ q.2) →
    (∑ b in Finset.range n, ∑ a in Finset.range b, L.countP (pairB a b)) = L.length
  | [], _ => by simp
  | q :: L, h => by
    obtain ⟨x, y⟩ := q
    have hq := h (x, y) (List.mem_cons_self _ _)
    have ihyp := sumPairs n L fun q' hq' => h q' (List.mem_cons_of_mem _ hq')
    simp only [List.countP_cons, List.length_cons]
    have hsplit : ∀ b' ∈ Finset.range n, (∑ a in Finset.range b',
        (L.countP (pairB a b') + if pairB a b' (x, y) then 1 else 0)) =
        (∑ a in Finset.range b', L.countP (pairB a b')) +
          (∑ a in Finset.range b', if pairB a b' (x, y) then 1 else 0) := by
      intro b' _
      rw [Finset.sum_add_distrib]
    rw [Finset.sum_congr rfl hsplit, Finset.sum_add_distrib, ihyp,
      singlePair n x y hq.1 hq.2.1 hq.2.2]

/-- Each round of the circle method has `n / 2` matches. -/
theorem closedRound_length (n s r : ℕ) (h2 : 2 ≤ n) :
    (closedRound n s r).length = n / 2 := by
  unfold closedRound
  simp only [List.length_cons, List.length_map, List.length_range]
  omega

/-- Across all rounds, every unordered pair is realised at most once. -/
theorem pair_count_le_one (n : ℕ) (h2 : 2 ≤ n) (he : n % 2 = 0) (a b : ℕ)
    (hab : a < b) (hbn : b < n) :
    (∑ r in Finset.range (n - 1),
      (closedRound n (r * (n / 2)) r).countP (pairB a b)) ≤ 1 := by
  have hmpos : 0 < n - 1 := by omega
  by_cases hb : b = n - 1
  · subst hb
    have ha : a < n - 1 := hab
    have hcnt : ∀ r, (closedRound n (r * (n / 2)) r).countP (pairB a (n - 1)) =
        if r * (n / 2) % (n - 1) = a then 1 else 0 := by
      intro r
      rw [countP_closedRound]
      have hmatch0 : ∀ t ∈ Finset.range (n / 2 - 1),
          (if pairB a (n - 1) ((1 + t + r * (n / 2)) % (n - 1),
            (n - 2 - t + r * (n / 2)) % (n - 1)) then 1 else 0) = 0 := by
        intro t _
        rw [if_neg]
        intro hcon
        rcases (pairB_eq_true _ _ _).mp hcon with heq | heq
        · have h1 := congrArg Prod.snd heq
          simp only at h1
          have := Nat.mod_lt (n - 2 - t + r * (n / 2)) hmpos
          omega
        · have h1 := congrArg Prod.fst heq
          simp only at h1
          have := Nat.mod_lt (1 + t + r * (n / 2)) hmpos
          omega
      rw [Finset.sum_congr rfl hmatch0]
      simp only [Finset.sum_const_zero, add_zero]
      have hmod := Nat.mod_lt (r * (n / 2)) hmpos
      by_cases hpar : r % 2 = 0
      · rw [if_pos hpar]
        by_cases hhit : r * (n / 2) % (n - 1) = a
        · rw [if_pos hhit, if_pos (by rw [pairB_eq_true]; exact Or.inl (by rw [hhit]))]
        · rw [if_neg hhit, if_neg]
          intro hcon
          rcases (pairB_eq_true _ _ _).mp hcon with heq | heq
          · have h1 := congrArg Prod.fst heq
            simp only at h1
            exact hhit h1
          · have h1 := congrArg Prod.fst heq
            simp only at h1
            omega
      · rw [if_neg hpar]
        by_cases hhit : r * (n / 2) % (n - 1) = a
        · rw [if_pos hhit, if_pos (by rw [pairB_eq_true]; exact Or.inr (by rw [hhit]))]
        · rw [if_neg hhit, if_neg]
          intro hcon
          rcases (pairB_eq_true _ _ _).mp hcon with heq | heq
          · have h1 := congrArg Prod.fst heq
            simp only at h1
            omega
          · have h1 := congrArg Prod.snd heq
            simp only at h1
            exact hhit h1
    rw [Finset.sum_congr rfl fun r _ => hcnt r]
    refine sum_range_le_one (n - 1) ((2 * a) % (n - 1)) _
      (fun r _ => by split_ifs <;> omega) ?_
    intro r hrk hne
    have hhit : r * (n / 2) % (n - 1) = a := by
      by_contra hcon
      rw [if_neg hcon] at hne
      exact hne rfl
    refine mul_half_mod_inj n h2 he r _ hrk (Nat.mod_lt _ hmpos) ?_
    rw [hhit, hub_solution n h2 he a ha]
  · have hbm : b < n - 1 := by omega
    have hnohub1 : ∀ x : ℕ, pairB a b (x, n - 1) = false := by
      intro x
      rw [Bool.eq_false_iff]
      intro hcon
      rcases (pairB_eq_true _ _ _).mp hcon with heq | heq
      · have h1 := congrArg Prod.snd heq
        simp only at h1
        omega
      · have h1 := congrArg Prod.snd heq
        simp only at h1
        omega
    have hnohub2 : ∀ x : ℕ, pairB a b (n - 1, x) = false := by
      intro x
      rw [Bool.eq_false_iff]
      intro hcon
      rcases (pairB_eq_true _ _ _).mp hcon with heq | heq
      · have h1 := congrArg Prod.fst heq
        simp only at h1
        omega
      · have h1 := congrArg Prod.fst heq
        simp only at h1
        omega
    have hcnt : ∀ r, (closedRound n (r * (n / 2)) r).countP (pairB a b) =
        ∑ t in Finset.range (n / 2 - 1),
          if pairB a b ((1 + t + r * (n / 2)) % (n - 1),
            (n - 2 - t + r * (n / 2)) % (n - 1)) then 1 else 0 := by
      intro r
      rw [countP_closedRound]
      by_cases hpar : r % 2 = 0
      · rw [if_pos hpar, hnohub1]
        simp
      · rw [if_neg hpar, hnohub2]
        simp
    rw [Finset.sum_congr rfl fun r _ => hcnt r]
    refine sum_range_le_one (n - 1) ((a + b) % (n - 1)) _ ?_ ?_
    · intro r _
      exact sum_ite_le_one (n / 2 - 1) _ fun t t' ht ht' hp hp' =>
        nonhub_t_unique n h2 he a b (r * (n / 2)) t t' ht ht' hp hp'
    · intro r hrk hne
      obtain ⟨t, htmem, hti⟩ := Finset.exists_ne_zero_of_sum_ne_zero hne
      have htk := Finset.mem_range.mp htmem
      have hhit : pairB a b ((1 + t + r * (n / 2)) % (n - 1),
          (n - 2 - t + r * (n / 2)) % (n - 1)) = true := by
        by_contra hcon
        rw [if_neg hcon] at hti
        exact hti rfl
      have hdet := nonhub_round_det n h2 he a b r t htk hhit
      have hcast2 : (((a + b) % (n - 1) : ℕ) : ZMod (n - 1)) =
          (a : ZMod (n - 1)) + b := by
        rw [ZMod.natCast_mod]
        push_cast
        ring
      refine natCast_inj_of_lt (n - 1) r _ hmpos hrk (Nat.mod_lt _ hmpos) ?_
      rw [hdet, hcast2]

/-- **C4.** For every even `n > 0`, `circle_method n` returns exactly `n - 1`
rounds with exactly `n / 2` matches per round, each team below `n` appears in
exactly one match of every round, and every unordered pair of distinct teams
appears in exactly one match across all rounds (so for `n = 6`: 5 rounds of 3
matches covering all 15 unordered pairs). -/
theorem circle_method_is_srr (n : ℕ) (hn : 0 < n) (he : n % 2 = 0) :
    (circle_method n).length = n - 1 ∧
    (∀ R ∈ circle_method n, R.length = n / 2) ∧
    (∀ R ∈ circle_method n, ∀ u, u < n →
      (R.flatMap fun q => [q.1, q.2]).count u = 1) ∧
    (∀ a b : ℕ, a < b → b < n →
      ((circle_method n).flatten.countP (pairB a b)) = 1) := by
  have h2 : 2 ≤ n := by omega
  have hclosed := circle_method_eq_closed n h2 he
  refine ⟨?_, ?_, ?_, ?_⟩
  · rw [hclosed]
    simp
  · intro R hR
    rw [hclosed] at hR
    obtain ⟨r, _, hRr⟩ := List.mem_map.mp hR
    rw [← hRr]
    exact closedRound_length n _ r h2
  · intro R hR u hu
    rw [hclosed] at hR
    obtain ⟨r, _, hRr⟩ := List.mem_map.mp hR
    have hrot : closedRound n (r * (n / 2)) r =
        circleRound n ((List.range (n - 1)).rotate (r * (n / 2))) r :=
      (circleRound_rotate n h2 he _ r).symm
    have hdlen : ((List.range (n - 1)).rotate (r * (n / 2))).length = n - 1 := by
      simp
    have hperm2 : (R.flatMap fun q => [q.1, q.2]).Perm (List.range n) := by
      rw [← hRr, hrot]
      refine (circleRound_teams_perm n h2 he _ hdlen r).trans ?_
      refine List.Perm.trans (List.Perm.cons _ (List.rotate_perm _ _)) ?_
      have hrange : List.range n = List.range (n - 1) ++ [n - 1] := by
        conv_lhs => rw [show n = n - 1 + 1 from by omega]
        rw [List.range_succ]
      rw [hrange]
      exact (List.perm_append_singleton _ _).symm
    rw [hperm2.count_eq]
    exact List.count_eq_one_of_mem (List.nodup_range n) (List.mem_range.mpr hu)
  · intro a b hab hbn
    have hflat : ∀ a' b' : ℕ, ((circle_method n).flatten.countP (pairB a' b')) =
        ∑ r in Finset.range (n - 1),
          (closedRound n (r * (n / 2)) r).countP (pairB a' b') := by
      intro a' b'
      rw [hclosed, List.countP_flatten, List.map_map]
      exact list_sum_range (n - 1) fun r =>
        (closedRound n (r * (n / 2)) r).countP (pairB a' b')
    have hvalid : ∀ q ∈ (circle_method n).flatten,
        q.1 < n ∧ q.2 < n ∧ q.1 ≠ q.2 := by
      intro q hq
      rw [hclosed, List.mem_flatten] at hq
      obtain ⟨R, hR, hqR⟩ := hq
      obtain ⟨r, _, hRr⟩ := List.mem_map.mp hR
      rw [← hRr] at hqR
      unfold closedRound at hqR
      have hm1 := Nat.mod_lt (r * (n / 2)) (show 0 < n - 1 by omega)
      rcases List.mem_cons.mp hqR with hhub | hmod
      · by_cases hpar : r % 2 = 0
        · rw [if_pos hpar] at hhub
          subst hhub
          dsimp only
          omega
        · rw [if_neg hpar] at hhub
          subst hhub
          dsimp only
          omega
      · obtain ⟨t, htmem, hqt⟩ := List.mem_map.mp hmod
        have htk := List.mem_range.mp htmem
        have hne := nonhub_comps_ne n h2 he (r * (n / 2)) t htk
        have hc1 := Nat.mod_lt (1 + t + r * (n / 2)) (show 0 < n - 1 by omega)
        have hc2 := Nat.mod_lt (n - 2 - t + r * (n / 2)) (show 0 < n - 1 by omega)
        subst hqt
        dsimp only
        exact ⟨by omega, by omega, hne⟩
    have hlen : (circle_method n).flatten.length = (n - 1) * (n / 2) := by
      rw [hclosed, List.length_flatten, List.map_map]
      have hcomp : (List.length ∘ fun r => closedRound n (r * (n / 2)) r) =
          fun r => (closedRound n (r * (n / 2)) r).length := rfl
      rw [hcomp, list_sum_range (n - 1) fun r => (closedRound n (r * (n / 2)) r).length]
      rw [Finset.sum_congr rfl fun r _ => closedRound_length n (r * (n / 2)) r h2]
      simp [mul_comm]
    have hgauss : (∑ b' in Finset.range n, ∑ a' in Finset.range b', (1 : ℕ)) =
        (n - 1) * (n / 2) := by
      have h1 : ∀ b' ∈ Finset.range n,
          (∑ a' in Finset.range b', (1 : ℕ)) = b' := by
        intro b' _
        simp
      rw [Finset.sum_congr rfl h1]
      have hmul := Finset.sum_range_id_mul_two n
      have hrhs : (n - 1) * (n / 2) * 2 = n * (n - 1) := by
        have hnn : 2 * (n / 2) = n := by omega
        calc (n - 1) * (n / 2) * 2 = (n - 1) * (2 * (n / 2)) := by ring
          _ = (n - 1) * n := by rw [hnn]
          _ = n * (n - 1) := by ring
      exact Nat.eq_of_mul_eq_mul_right (by norm_num) (hmul.trans hrhs.symm)
    have htotal : (∑ b' in Finset.range n, ∑ a' in Finset.range b',
        (circle_method n).flatten.countP (pairB a' b')) = (n - 1) * (n / 2) := by
      rw [sumPairs n _ hvalid, hlen]
    have hle : ∀ b' ∈ Finset.range n, (∑ a' in Finset.range b',
        (circle_method n).flatten.countP (pairB a' b')) ≤
        ∑ a' in Finset.range b', 1 := by
      intro b' hb'
      refine Finset.sum_le_sum fun a' ha' => ?_
      rw [hflat a' b']
      exact pair_count_le_one n h2 he a' b' (Finset.mem_range.mp ha')
        (Finset.mem_range.mp hb')
    have houter := (Finset.sum_eq_sum_iff_of_le hle).mp
      (htotal.trans hgauss.symm)
    have hb_eq := houter b (Finset.mem_range.mpr hbn)
    have hinner_le : ∀ a' ∈ Finset.range b,
        (circle_method n).flatten.countP (pairB a' b) ≤ 1 := by
      intro a' ha'
      rw [hflat a' b]
      exact pair_count_le_one n h2 he a' b (Finset.mem_range.mp ha') hbn
    have hinner := (Finset.sum_eq_sum_iff_of_le hinner_le).mp hb_eq
    exact hinner a (Finset.mem_range.mpr hab)

/-- Witness for C4 at `n = 6`: 5 rounds, and the pair `{0, 5}` meets exactly
once. -/
theorem circle_method_is_srr_witness :
    (circle_method 6).length = 5 ∧
    ((circle_method 6).flatten.countP (pairB 0 5)) = 1 := by
  have h := circle_method_is_srr 6 (by decide) (by decide)
  exact ⟨h.1, h.2.2.2 0 5 (by decide) (by decide)⟩

/-- A player below `n` has `n - 1` opponents. -/
theorem opponents_length : ∀ (n p : ℕ), p < n → (opponents n p).length = n - 1
  | 0, p, hp => absurd hp (by omega)
  | n + 1, p, hp => by
    unfold opponents
    rw [List.range_succ, List.filter_append]
    rcases Nat.lt_or_ge p n with h | h
    · have ih := opponents_length n p h
      unfold opponents at ih
      rw [List.length_append, ih]
      have hnp : n ≠ p := by omega
      simp only [List.filter_cons, List.filter_nil, decide_eq_true_eq]
      rw [if_pos hnp]
      simp only [List.length_cons, List.length_nil]
      omega
    · have hpn : p = n := by omega
      subst hpn
      have hall : (List.range p).filter (fun q => q ≠ p) = List.range p := by
        refine List.filter_eq_self.mpr fun q hq => ?_
        have := List.mem_range.mp hq
        simp only [decide_eq_true_eq]
        omega
      rw [List.length_append, hall]
      simp

/-- Under the exactly-once-per-pair constraint, each ordered home count is a
0/1 quantity. -/
theorem homecount_le_one (n : ℕ) (x : ℕ → ℕ → ℕ → Bool)
    (hpair : satPairOnce n x) (p j : ℕ) (hp : p < n) (hj : j < n)
    (hne : p ≠ j) : homecount n x p j ≤ 1 := by
  rcases Nat.lt_or_ge p j with h | h
  · have := hpair p (Finset.mem_range.mpr hp) j (Finset.mem_range.mpr hj) h
    omega
  · have hjp : j < p := by omega
    have := hpair j (Finset.mem_range.mpr hj) p (Finset.mem_range.mpr hp) hjp
    omega

/-- Evaluation helper for length-5 H/A sequences: once the integer
`f_measure_counted_twice` is known, `f_valueAux` is `(m/2 - 2) / 5`. -/
theorem f_valueAux5 (l : List Char) (m : ℤ) (hm : f_measure_counted_twice l = m)
    (hl : l.length = 5) : f_valueAux l = ((m : ℚ) / 2 - 2) / 5 := by
  unfold f_valueAux delta_t
  rw [hm, hl]
  norm_num

/-- Membership in the opponent list means: a team below `n` other than the
player. -/
theorem mem_opponents (n p q : ℕ) (h : q ∈ opponents n p) : q < n ∧ q ≠ p := by
  unfold opponents at h
  have hm := List.mem_filter.mp h
  refine ⟨List.mem_range.mp hm.1, ?_⟩
  simpa using hm.2

/-- Under the exactly-once-per-pair constraint, the sum of the pinned
deviation values of one team is the fairness measure of its ranking HAP. -/
theorem zdiff_sum_eq_fm (n : ℕ) (x : ℕ → ℕ → ℕ → Bool) (p : ℕ) (hp : p < n)
    (hpair : satPairOnce n x) :
    (∑ i in Finset.range n, ∑ j in Finset.Ico (i + 2) n, |zdiff n x p i j|) =
      (f_measure_counted_twice (hap n x p) : ℚ) := by
  have hn1 : 1 ≤ n := by omega
  have holen : (opponents n p).length = n - 1 := opponents_length n p hp
  have hhlen : (hap n x p).length = n - 1 := by
    unfold hap
    rw [List.length_map, holen]
  unfold f_measure_counted_twice
  rw [hhlen, Nat.sub_add_cancel hn1]
  push_cast
  have hrn : Finset.range n = Finset.range ((n - 1) + 1) := by
    rw [Nat.sub_add_cancel hn1]
  conv_lhs => rw [hrn]
  rw [Finset.sum_range_succ]
  have hem : Finset.Ico ((n - 1) + 2) n = ∅ := Finset.Ico_eq_empty (by omega)
  rw [hem, Finset.sum_empty, add_zero]
  refine Finset.sum_congr rfl fun i hi => Finset.sum_congr rfl fun j hj => ?_
  obtain ⟨hij, hjn⟩ := Finset.mem_Ico.mp hj
  congr 1
  have hk : ∀ k ∈ Finset.Ico i j,
      ((homecount n x p ((opponents n p).getD k 0) : ℚ)) =
        ((ind ((hap n x p).getD k 'A') : ℤ) : ℚ) := by
    intro k hkm
    obtain ⟨hki, hkj⟩ := Finset.mem_Ico.mp hkm
    have hkl : k < (opponents n p).length := by
      rw [holen]
      omega
    have hgl : (hap n x p).getD k 'A' =
        if 0 < homecount n x p ((opponents n p).getD k 0) then 'H' else 'A' := by
      unfold hap
      rw [List.getD_eq_getElem _ _ (by rw [List.length_map]; exact hkl),
        List.getElem_map, List.getD_eq_getElem _ _ hkl]
    have hqmem : (opponents n p).getD k 0 ∈ opponents n p := by
      rw [List.getD_eq_getElem _ _ hkl]
      exact List.getElem_mem hkl
    have hqprop := mem_opponents n p _ hqmem
    have hle1 : homecount n x p ((opponents n p).getD k 0) ≤ 1 :=
      homecount_le_one n x hpair p _ hp hqprop.1 (Ne.symm hqprop.2)
    rw [hgl]
    by_cases h0 : 0 < homecount n x p ((opponents n p).getD k 0)
    · rw [if_pos h0]
      have h1 : homecount n x p ((opponents n p).getD k 0) = 1 := by omega
      rw [h1]
      unfold ind
      rw [if_pos rfl]
      norm_num
    · rw [if_neg h0]
      have h1 : homecount n x p ((opponents n p).getD k 0) = 0 := by omega
      rw [h1]
      unfold ind
      rw [if_neg (by decide)]
      norm_num
  unfold zdiff sliceSum
  rw [Finset.sum_congr rfl hk]
  push_cast
  ring

set_option maxHeartbeats 1600000 in
/-- The hand-built six-team schedule satisfies the whole constraint system of
`_build` in total mode, with the deviations pinned to the absolute
differences. -/
theorem schedule6_sat : SatTotal 6 (some [2, 2, 1]) xstar bstar zstar := by
  unfold SatTotal
  refine ⟨?_, ?_, ?_, ?_, ?_⟩
  · unfold satOnePattern
    decide
  · unfold satPairOnce
    decide
  · unfold satRoundOnce
    decide
  · unfold satBreakPattern
    decide
  · unfold satZTotal
    intro q _ i _ j _
    exact ⟨le_abs_self _, neg_le_abs _⟩

set_option maxHeartbeats 1600000 in
/-- **C5, counterexample.** The hand-built schedule satisfies the whole
`n = 6`, `break_gaps = (2,2,1)`, total-mode constraint system with every
deviation variable pinned to the absolute difference it bounds, yet the
objective value (72, the sum of the six fairness measures) is not 6 times the
mean F-value of the ranking HAPs read off the match variables (which is
24/5). -/
theorem objective_not_n_times_mean_f :
    SatTotal 6 (some [2, 2, 1]) xstar bstar zstar ∧
    (∀ p i j : ℕ, zstar p i j = |zdiff 6 xstar p i j|) ∧
    objective 6 zstar ≠ 6 * meanF 6 xstar := by
  refine ⟨schedule6_sat, fun p i j => rfl, ?_⟩
  have hZint : (∑ p in Finset.range 6, ∑ i in Finset.range 6,
      ∑ j in Finset.Ico (i + 2) 6, |zdiffZ 6 xstar p i j|) = (72 : ℤ) := by
    decide
  have hcast : ∀ p i j : ℕ, zstar p i j = ((|zdiffZ 6 xstar p i j| : ℤ) : ℚ) := by
    intro p i j
    show |zdiff 6 xstar p i j| = _
    rw [Int.cast_abs]
    congr 1
    unfold zdiff zdiffZ
    push_cast
    ring
  have hobj : objective 6 zstar = 72 := by
    unfold objective
    rw [Finset.sum_congr rfl fun p _ => Finset.sum_congr rfl fun i _ =>
      Finset.sum_congr rfl fun j _ => hcast p i j]
    rw [show (∑ p in Finset.range 6, ∑ i in Finset.range 6,
        ∑ j in Finset.Ico (i + 2) 6, ((|zdiffZ 6 xstar p i j| : ℤ) : ℚ)) =
        ((∑ p in Finset.range 6, ∑ i in Finset.range 6,
        ∑ j in Finset.Ico (i + 2) 6, |zdiffZ 6 xstar p i j| : ℤ) : ℚ) from by
      push_cast
      rfl]
    rw [hZint]
    norm_num
  have h0 := f_valueAux5 (hap 6 xstar 0) 8 (by decide) (by decide)
  have h1 := f_valueAux5 (hap 6 xstar 1) 14 (by decide) (by decide)
  have h2 := f_valueAux5 (hap 6 xstar 2) 8 (by decide) (by decide)
  have h3 := f_valueAux5 (hap 6 xstar 3) 14 (by decide) (by decide)
  have h4 := f_valueAux5 (hap 6 xstar 4) 14 (by decide) (by decide)
  have h5 := f_valueAux5 (hap 6 xstar 5) 14 (by decide) (by decide)
  have hmean : meanF 6 xstar = 4 / 5 := by
    unfold meanF
    rw [Finset.sum_range_succ, Finset.sum_range_succ, Finset.sum_range_succ,
      Finset.sum_range_succ, Finset.sum_range_succ, Finset.sum_range_succ,
      Finset.sum_range_zero, h0, h1, h2, h3, h4, h5]
    norm_num
  rw [hobj, hmean]
  norm_num

/-- **C5, amended.** The `n = 6`, `break_gaps = (2,2,1)`, total-mode
constraint system is satisfiable with the deviation variables pinned to the
absolute differences, and for EVERY satisfying assignment so pinned the
objective value equals `10 * (6 * meanF) + 24` — the affine image of, not
equal to, `n` times the mean F-value. -/
theorem model_objective_vs_mean_f_value :
    (∃ x b z, SatTotal 6 (some [2, 2, 1]) x b z ∧
      ∀ p i j : ℕ, z p i j = |zdiff 6 x p i j|) ∧
    (∀ (x : ℕ → ℕ → ℕ → Bool) (b : ℕ → ℕ × Char → Bool) (z : ℕ → ℕ → ℕ → ℚ),
      SatTotal 6 (some [2, 2, 1]) x b z →
      (∀ p i j : ℕ, z p i j = |zdiff 6 x p i j|) →
      objective 6 z = 10 * (6 * meanF 6 x) + 24) := by
  constructor
  · exact ⟨xstar, bstar, zstar, schedule6_sat, fun p i j => rfl⟩
  · intro x b z hsat hz
    have hpair : satPairOnce 6 x := hsat.2.1
    have hobj : objective 6 z =
        ∑ p in Finset.range 6, (f_measure_counted_twice (hap 6 x p) : ℚ) := by
      unfold objective
      refine Finset.sum_congr rfl fun p hp => ?_
      rw [Finset.sum_congr rfl fun i _ => Finset.sum_congr rfl fun j _ => hz p i j]
      exact zdiff_sum_eq_fm 6 x p (Finset.mem_range.mp hp) hpair
    have hlen : ∀ p, p < 6 → (hap 6 x p).length = 5 := by
      intro p hp
      unfold hap
      rw [List.length_map]
      exact opponents_length 6 p hp
    have hfv : ∀ p ∈ Finset.range 6, 10 * f_valueAux (hap 6 x p) =
        (f_measure_counted_twice (hap 6 x p) : ℚ) - 4 := by
      intro p hp
      rw [f_valueAux5 _ _ rfl (hlen p (Finset.mem_range.mp hp))]
      ring
    have hmean : 6 * meanF 6 x = ∑ p in Finset.range 6, f_valueAux (hap 6 x p) := by
      unfold meanF
      rw [Nat.cast_ofNat]
      ring
    rw [hobj, hmean, Finset.mul_sum, Finset.sum_congr rfl hfv,
      Finset.sum_sub_distrib, Finset.sum_const, Finset.card_range, nsmul_eq_mul]
    push_cast
    ring

end FairSchedules
